import Mathlib

/-!
Verification of the git-rewind background job-processing subsystem.

This file gives a shallow embedding of the repository's core:

* the single-worker FIFO `JobQueue` (`src/unnamed/part_009`, class `JobQueue`:
  `addJob`, `processNext`, `updateProgress`, `cleanupOldJobs`, `setWorker`),
* the persistence layer (`src/unnamed/part_001`, `GitHubCommitFetcher`:
  `saveCommitToDB`, `getCommitFromDB`, `analyzeCommitWithAI`),
* the `fetch-commits` worker registered with the queue
  (`src/unnamed/part_007`, `jobQueue.setWorker`), and
* the per-commit loop of the full-collection script (`src/unnamed/part_000`,
  `main`).

JavaScript's single-threaded event loop is modelled as a state machine whose
atomic steps are the synchronous segments of the original code: an `await` on
the worker promise is a suspension point, so dispatch (`processNext`) runs to
the worker invocation and stops, and the worker's resolution (fulfilment or
rejection of its promise) is a separate step (`resolveJob`).  The state
carries two pieces of ghost instrumentation that exist only to state
observable temporal properties: `running` (the job id of the worker
invocation currently in flight, if any) and `trace` (the ordered list of
emitted lifecycle events, mirroring the `job-added` / `job-started` /
`job-progress` / `job-completed` / `job-failed` emissions of the source).

Job ids in the source are strings `type_timestamp_random`; collisions are
assumed impossible (the spec calls their probability negligible), so ids are
modelled as the naturals `0, 1, 2, ...` handed out by a counter.
Timestamps (`Date.now()`, `new Date()`) are supplied by the environment as
`Nat` parameters of each step.
-/

/-- Job type tag: `'fetch-commits' | 'fetch-all'` in `part_009`. -/
inductive JobType where
  | fetchCommits
  | fetchAll
deriving DecidableEq, Repr

/-- Job lifecycle status: `'pending' | 'processing' | 'completed' | 'failed'`. -/
inductive JStatus where
  | pending
  | processing
  | completed
  | failed
deriving DecidableEq, Repr

/-- The `Job` record of `part_009` (`interface Job`).  The opaque `data` and
`result` payloads are modelled as strings. -/
structure Job where
  id : Nat
  jtype : JobType
  data : String
  status : JStatus
  progress : Option Nat
  result : Option String
  error : Option String
  createdAt : Nat
  startedAt : Option Nat
  completedAt : Option Nat
deriving DecidableEq, Repr

/-- Ghost lifecycle events, mirroring the `EventEmitter` emissions of
`JobQueue`: `job-added`, `job-started`, `job-progress`, and the terminal
`job-completed` / `job-failed` (`resolved` with a success flag). -/
inductive Event where
  | enqueued (id : Nat)
  | started (id : Nat)
  | progressed (id : Nat) (p : Nat)
  | resolved (id : Nat) (ok : Bool)
deriving DecidableEq, Repr

/-- The queue state: `jobs`/`queue`/`processing`/`worker` are the four private
fields of class `JobQueue`; `nextId` is the id counter; `running` and `trace`
are ghost instrumentation (see the header comment). -/
structure QState where
  jobs : List Job
  queue : List Nat
  processing : Bool
  workerSet : Bool
  nextId : Nat
  running : Option Nat
  trace : List Event
deriving DecidableEq, Repr

/-- Lookup `this.jobs.get(jobId)` in the in-process job map, keyed by id. -/
def findJob (js : List Job) (i : Nat) : Option Job :=
  js.find? (fun j => j.id == i)

/-- Point update of the job map at one id (mutation of the `Job` object held
in the map). -/
def setJob (js : List Job) (i : Nat) (f : Job → Job) : List Job :=
  js.map (fun j => if j.id == i then f j else j)

/-- The dispatch step of `processNext` once a runnable job has been popped:
set the `processing` flag, mark the job `processing` with a start timestamp,
emit `job-started` and begin the worker invocation (`running := jid`);
the `await` then suspends. -/
def startJob (t : Nat) (jid : Nat) (rest : List Nat) (s : QState) : QState :=
  { s with processing := true, queue := rest,
           jobs := setJob s.jobs jid
             (fun j => { j with status := JStatus.processing, startedAt := some t }),
           running := some jid,
           trace := s.trace ++ [Event.started jid] }

/-- Model of `JobQueue.processNext` (part_009 lines 1410-1451), with explicit fuel in
place of the structural recursion on the shrinking wait-list (each recursive
call in the source pops one element of `this.queue`, so any fuel at least the
queue length gives the exact behaviour; `processNext` below passes exactly
the queue length).

Branches: return if the `processing` flag is set or the wait-list is empty;
otherwise pop the head; if the job is missing from the map or no worker is
registered, clear the flag and recurse; otherwise dispatch. -/
def processNextFuel : Nat → Nat → QState → QState
  | 0, _, s => s
  | Nat.succ fuel, t, s =>
    if s.processing then s
    else
      match s.queue with
      | [] => s
      | jid :: rest =>
        if (findJob s.jobs jid).isSome && s.workerSet then
          startJob t jid rest s
        else
          processNextFuel fuel t { s with processing := false, queue := rest }

/-- Model of `JobQueue.processNext`. -/
def processNext (t : Nat) (s : QState) : QState :=
  processNextFuel s.queue.length t s

/-- The fresh `pending` job created by `addJob`. -/
def newJob (jt : JobType) (d : String) (t : Nat) (s : QState) : Job :=
  { id := s.nextId, jtype := jt, data := d, status := JStatus.pending,
    progress := none, result := none, error := none,
    createdAt := t, startedAt := none, completedAt := none }

/-- The synchronous part of `addJob` before the dispatch attempt: create a
`pending` job, append its id to the wait-list, emit `job-added`. -/
def addMid (jt : JobType) (d : String) (t : Nat) (s : QState) : QState :=
  { s with
    jobs := s.jobs ++ [newJob jt d t s],
    queue := s.queue ++ [s.nextId],
    nextId := s.nextId + 1,
    trace := s.trace ++ [Event.enqueued s.nextId] }

/-- Model of `JobQueue.addJob` (part_009 lines 1363-1383): create a `pending` job,
append its id to the wait-list, emit `job-added`, trigger a dispatch attempt,
and return the new id. -/
def addJob (jt : JobType) (d : String) (t : Nat) (s : QState) : Nat × QState :=
  (s.nextId, processNext t (addMid jt d t s))

/-- The value of `error.message || 'Unknown error'` — the exception's message, or the fixed
fallback when the thrown value has no message (or an empty one, which is
falsy in JavaScript). -/
def errMsg : Option String → String
  | none => "Unknown error"
  | some m => if m = "" then "Unknown error" else m

/-- Resolution of the in-flight worker invocation: the continuation of
`processNext` after `await this.worker(job)` (part_009 lines 1434-1451).
`Except.ok r` is promise fulfilment with result `r`; `Except.error m` is
rejection with an exception whose `.message` is `m` (`none` for a message-less
throw).  Records the outcome, stamps `completedAt`, emits the terminal event,
clears the flag and immediately attempts to dispatch the next waiting job.
A no-op when no invocation is in flight. -/
def resolveMid (outcome : Except (Option String) String) (jid t : Nat) (s : QState) : QState :=
  match outcome with
  | Except.ok r =>
    { s with
      jobs := setJob s.jobs jid
        (fun j => { j with status := JStatus.completed, result := some r,
                           completedAt := some t }),
      trace := s.trace ++ [Event.resolved jid true],
      processing := false, running := none }
  | Except.error m =>
    { s with
      jobs := setJob s.jobs jid
        (fun j => { j with status := JStatus.failed, error := some (errMsg m),
                           completedAt := some t }),
      trace := s.trace ++ [Event.resolved jid false],
      processing := false, running := none }

/-- See `resolveMid`: record the outcome on the running job, clear the flag,
then immediately attempt to dispatch the next waiting job. -/
def resolveJob (outcome : Except (Option String) String) (t : Nat) (s : QState) : QState :=
  match s.running with
  | none => s
  | some jid => processNext t (resolveMid outcome jid t s)

/-- Model of `JobQueue.updateProgress` (part_009 lines 1401-1407): no-op if the job is
unknown; otherwise set `progress` and emit `job-progress`. -/
def updateProgress (jid p : Nat) (s : QState) : QState :=
  match findJob s.jobs jid with
  | none => s
  | some _ =>
    { s with jobs := setJob s.jobs jid (fun j => { j with progress := some p }),
             trace := s.trace ++ [Event.progressed jid p] }

/-- Retention window of terminal jobs: one hour in milliseconds. -/
def retentionMs : Nat := 60 * 60 * 1000

/-- Whether `cleanupOldJobs` removes the job: terminal status and a completion
timestamp strictly older than one hour. -/
def isStale (now : Nat) (j : Job) : Bool :=
  (j.status == JStatus.completed || j.status == JStatus.failed) &&
    (match j.completedAt with
     | some c => c < now - retentionMs
     | none => false)

/-- Model of `JobQueue.cleanupOldJobs` (part_009 lines 1454-1466). -/
def cleanupOldJobs (now : Nat) (s : QState) : QState :=
  { s with jobs := s.jobs.filter (fun j => ! isStale now j) }

/-- Model of `JobQueue.setWorker`: registers the single worker function (only its
presence matters to the queue's control flow). -/
def setWorker (s : QState) : QState :=
  { s with workerSet := true }

/-- One external interaction with the queue. -/
inductive Act where
  | add (jt : JobType) (d : String) (t : Nat)
  | resolve (outcome : Except (Option String) String) (t : Nat)
  | setw
  | progress (jid p : Nat)
  | cleanup (t : Nat)

/-- The step function of the event-loop model. -/
def step : Act → QState → QState
  | Act.add jt d t, s => (addJob jt d t s).2
  | Act.resolve o t, s => resolveJob o t s
  | Act.setw, s => setWorker s
  | Act.progress j p, s => updateProgress j p s
  | Act.cleanup t, s => cleanupOldJobs t s

/-- The queue as constructed: empty map, empty wait-list, flag clear, no
worker registered. -/
def QState.start : QState :=
  { jobs := [], queue := [], processing := false, workerSet := false,
    nextId := 0, running := none, trace := [] }

/-- States reachable from the freshly constructed queue. -/
inductive Reach : QState → Prop
  | start : Reach QState.start
  | step (a : Act) {s : QState} : Reach s → Reach (step a s)

/-- The queue just after `jobQueue.setWorker(...)` ran at server startup
(part_007 line 72), before any job is enqueued. -/
def QState.startW : QState :=
  { QState.start with workerSet := true }

/-- States reachable in an execution in which the worker was registered at
startup, before anything else (as `src/unnamed/part_007` does at module
load). -/
inductive ReachW : QState → Prop
  | start : ReachW QState.startW
  | step (a : Act) {s : QState} : ReachW s → ReachW (step a s)

/-- Reachability from an arbitrary intermediate state. -/
inductive ReachFrom : QState → QState → Prop
  | refl (s : QState) : ReachFrom s s
  | step (a : Act) {s s' : QState} : ReachFrom s s' → ReachFrom s (step a s')

/-! ### Trace projections and the started/resolved discipline -/

/-- Project a `started` event to its job id. -/
def evStart : Event → Option Nat
  | Event.started i => some i
  | _ => none

/-- Project a `resolved` event to its job id. -/
def evRes : Event → Option Nat
  | Event.resolved i _ => some i
  | _ => none

/-- Project an `enqueued` event to its job id. -/
def evEnq : Event → Option Nat
  | Event.enqueued i => some i
  | _ => none

/-- Ids of jobs enqueued so far, in order. -/
def enqIds (tr : List Event) : List Nat := tr.filterMap evEnq

/-- Ids of jobs whose worker invocation has started, in order. -/
def startIds (tr : List Event) : List Nat := tr.filterMap evStart

/-- One step of the started/resolved discipline automaton: the accumulator is
`some c` with `c` the currently open worker invocation (or `none`), and the
automaton rejects (`none`) a start while an invocation is open or a
resolution that does not match the open invocation. -/
def srStep (acc : Option (Option Nat)) (e : Event) : Option (Option Nat) :=
  match acc with
  | none => none
  | some c =>
    match e with
    | Event.started i =>
      match c with
      | none => some (some i)
      | some _ => none
    | Event.resolved i _ =>
      match c with
      | some j => if j = i then some none else none
      | none => none
    | _ => some c

/-- Run the started/resolved automaton over a trace. -/
def srTrace (tr : List Event) : Option (Option Nat) :=
  tr.foldl srStep (some none)

/-- Internal invariant of reachable queue states, proved below to be
preserved by every interaction.  `enq_range` pins down the ghost id
discipline (ids are handed out in order); `sr` states that the trace obeys
the started/resolved alternation discipline with `running` as the open
invocation; `sub` places the already-started ids followed by the wait-list
inside the enqueue order. -/
structure QInv (s : QState) : Prop where
  enq_range : enqIds s.trace = List.range s.nextId
  sr : srTrace s.trace = some s.running
  sub : (startIds s.trace ++ s.queue).Sublist (List.range s.nextId)
  proc_run : s.processing = s.running.isSome
  run_worker : ∀ i, s.running = some i → s.workerSet = true
  queue_pending : ∀ i ∈ s.queue, ∃ j, findJob s.jobs i = some j ∧ j.status = JStatus.pending
  jobs_lt : ∀ i ∈ s.jobs.map Job.id, i < s.nextId
  run_started : ∀ i, s.running = some i → Event.started i ∈ s.trace
  run_not_queued : ∀ i, s.running = some i → i ∉ s.queue
  run_job : ∀ i, s.running = some i →
    ∃ j, findJob s.jobs i = some j ∧ j.status = JStatus.processing

/-- Concrete run for the C1 witness: worker registered, job 0 enqueued and
started, job 0 resolved, job 1 enqueued and started. -/
def c1run : QState :=
  step (Act.add JobType.fetchAll "e" 3)
    (step (Act.resolve (Except.ok "r") 2)
      (step (Act.add JobType.fetchCommits "d" 1) (step Act.setw QState.start)))

/-- Concrete run for the C2 witness: worker registered at startup, job 0
enqueued and started, job 0 resolved, job 1 enqueued and started. -/
def c2run : QState :=
  step (Act.add JobType.fetchAll "e" 3)
    (step (Act.resolve (Except.ok "r") 2)
      (step (Act.add JobType.fetchCommits "d" 1) QState.startW))

/-- Concrete state for the C10 witness: a queue holding one `completed` job
with id `0` and one `pending` job with id `1`. -/
def c10run : QState :=
  { jobs := [{ id := 0, jtype := JobType.fetchCommits, data := "d",
               status := JStatus.completed, progress := some 40, result := some "r",
               error := none, createdAt := 1, startedAt := some 2,
               completedAt := some 3 },
             { id := 1, jtype := JobType.fetchAll, data := "e",
               status := JStatus.pending, progress := none, result := none,
               error := none, createdAt := 4, startedAt := none, completedAt := none }],
    queue := [1], processing := false, workerSet := true, nextId := 2,
    running := none,
    trace := [Event.enqueued 0, Event.started 0, Event.resolved 0 true,
              Event.enqueued 1] }

/-- Concrete run for the C5 witness: worker registered, job 0 enqueued and
dispatched (its worker invocation is in flight). -/
def c5run : QState :=
  step (Act.add JobType.fetchCommits "d" 1) (step Act.setw QState.start)

/-- A job id that is stranded: its job record exists and is still `pending`,
its id is no longer on the wait-list, its worker invocation never started,
and its id is in the already-allocated range (so it can never be re-used). -/
def Stuck (jid : Nat) (s : QState) : Prop :=
  (∃ j, findJob s.jobs jid = some j ∧ j.status = JStatus.pending)
  ∧ jid ∉ s.queue ∧ Event.started jid ∉ s.trace ∧ jid < s.nextId

/-- Concrete scenario for the C9 witness: a job enqueued on the fresh queue
with no worker registered; afterwards a cleanup sweep runs and a worker is
registered — the job is still pending and never started. -/
def c9later : QState :=
  step Act.setw (step (Act.cleanup 999999999)
    (step (Act.add JobType.fetchCommits "d" 1) QState.start))

/-! ### Persistence layer and fetcher (part_001, part_007, part_000) -/

/-- JavaScript truthiness of a `string | null | undefined` value: `null`,
`undefined` and the empty string are falsy. -/
def jsTruthyStr : Option String → Bool
  | none => false
  | some s => s ≠ ""

/-- A row of the `commits` table (schema in part_000, `initDatabase`):
primary key `sha`, unique `full_sha`. -/
structure CommitRow where
  sha : String
  full_sha : String
  repo : String
  message : String
  author : String
  author_email : String
  date : String
  additions : Int
  deletions : Int
  total_changes : Int
  files_changed : Int
  ai_summary : Option String
  ai_analyzed_at : Option String
deriving DecidableEq, Repr

/-- A row of the `commit_files` table: unique key `(commit_sha, filename)`
(the autoincrement surrogate id is not modelled). -/
structure FileRow where
  commit_sha : String
  filename : String
  status : String
  additions : Int
  deletions : Int
  changes : Int
  patch : Option String
deriving DecidableEq, Repr

/-- The two commit tables of the datastore. -/
structure DBState where
  commits : List CommitRow
  commit_files : List FileRow
deriving DecidableEq, Repr

/-- Semantics of `INSERT OR REPLACE INTO commits`: SQLite deletes any row conflicting on
the `sha` primary key or the `full_sha` unique constraint, then inserts. -/
def upsertCommitRow (db : DBState) (r : CommitRow) : DBState :=
  { db with commits :=
      (db.commits.filter (fun c => !(c.sha == r.sha || c.full_sha == r.full_sha))) ++ [r] }

/-- Semantics of `INSERT OR REPLACE INTO commit_files`, keyed by `(commit_sha, filename)`. -/
def upsertFileRow (db : DBState) (r : FileRow) : DBState :=
  { db with commit_files :=
      (db.commit_files.filter
        (fun f => !(f.commit_sha == r.commit_sha && f.filename == r.filename))) ++ [r] }

/-- Fault model for the SQLite statements: the environment says which
`run(...)` invocations raise (constraint violations, I/O errors, ...). -/
structure SqlEnv where
  commitInsertFails : CommitRow → Bool
  fileInsertFails : FileRow → Bool

/-- One `insertCommit.run(...)` call: raises per the fault model, otherwise
performs the insert-or-replace. -/
def runInsertCommit (env : SqlEnv) (db : DBState) (r : CommitRow) : Except String DBState :=
  if env.commitInsertFails r then Except.error "SQLITE_ERROR" else Except.ok (upsertCommitRow db r)

/-- One `insertFile.run(...)` call. -/
def runInsertFile (env : SqlEnv) (db : DBState) (r : FileRow) : Except String DBState :=
  if env.fileInsertFails r then Except.error "SQLITE_ERROR" else Except.ok (upsertFileRow db r)

/-- Per-file entry of `CommitData` (part_001). -/
structure FileInfo where
  filename : String
  status : String
  additions : Int
  deletions : Int
  changes : Int
  patch : Option String
deriving DecidableEq, Repr

/-- The record `CommitData` as produced by `getCommitDetailsWithDiff` (part_001). -/
structure CommitData where
  sha : String
  fullSha : String
  repo : String
  message : String
  author : String
  authorEmail : String
  date : String
  additions : Int
  deletions : Int
  totalChanges : Int
  filesChanged : Int
  files : List FileInfo
deriving DecidableEq, Repr

/-- The `commits` row written by `saveCommitToDB`: `ai_analyzed_at` is
stamped if and only if `aiSummary` is truthy (`aiSummary ? ... : null`). -/
def commitRowOf (cd : CommitData) (ai : Option String) (now : String) : CommitRow :=
  { sha := cd.sha, full_sha := cd.fullSha, repo := cd.repo, message := cd.message,
    author := cd.author, author_email := cd.authorEmail, date := cd.date,
    additions := cd.additions, deletions := cd.deletions,
    total_changes := cd.totalChanges, files_changed := cd.filesChanged,
    ai_summary := ai,
    ai_analyzed_at := if jsTruthyStr ai then some now else none }

/-- The `commit_files` row for one file: `file.patch || null` collapses an
empty patch string to null. -/
def fileRowOf (fullSha : String) (f : FileInfo) : FileRow :=
  { commit_sha := fullSha, filename := f.filename, status := f.status,
    additions := f.additions, deletions := f.deletions, changes := f.changes,
    patch := match f.patch with
             | some s => if s = "" then none else some s
             | none => none }

/-- The body of the `db.transaction(() => ...)()` callback in
`saveCommitToDB`: the commit-row insert followed by one file-row insert per
file, each of which may raise. -/
def txBody (env : SqlEnv) (db : DBState) (cd : CommitData) (ai : Option String)
    (now : String) : Except String DBState := do
  let db1 ← runInsertCommit env db (commitRowOf cd ai now)
  cd.files.foldlM (fun acc f => runInsertFile env acc (fileRowOf cd.fullSha f)) db1

/-- Model of `GitHubCommitFetcher.saveCommitToDB` (part_001 lines 314-364): runs the
two sub-writes inside a single transaction; better-sqlite3 rolls the
transaction back when the callback throws, and the surrounding
`try`/`catch` converts the raised error into a `false` return value.
Returns the flag and the datastore after the call. -/
def saveCommitToDB (env : SqlEnv) (db : DBState) (cd : CommitData) (ai : Option String)
    (now : String) : Bool × DBState :=
  match txBody env db cd ai now with
  | Except.ok db2 => (true, db2)
  | Except.error _ => (false, db)

/-- The fault-free meaning of the upsert: the commit row and every file row
applied together. -/
def applySave (db : DBState) (cd : CommitData) (ai : Option String) (now : String) : DBState :=
  cd.files.foldl (fun acc f => upsertFileRow acc (fileRowOf cd.fullSha f))
    (upsertCommitRow db (commitRowOf cd ai now))

/-- Model of `GitHubCommitFetcher.getCommitFromDB`:
`SELECT ai_summary FROM commits WHERE full_sha = ?` — `some ai` when a row
exists (`ai` its possibly-null `ai_summary`), `none` when no row matches. -/
def getCommitFromDB (db : DBState) (fullSha : String) : Option (Option String) :=
  (db.commits.find? (fun c => c.full_sha == fullSha)).map (fun c => c.ai_summary)

/-- The `content` field of the first chat choice: a plain string, or
something that is not a plain string (content chunks), or absent. -/
inductive ChatContent where
  | str (s : String)
  | chunks
deriving DecidableEq, Repr

/-- Outcome of one `mistral.chat.complete` call: the call throws, or it
returns a response whose extracted content is `c`. -/
inductive ChatOutcome where
  | err
  | response (c : Option ChatContent)
deriving DecidableEq, Repr

/-- The fixed-template prompt of `analyzeCommitWithAI` (part_001
lines 279-290): commit message, per-file bullet list, aggregate stats. -/
def buildPrompt (cd : CommitData) : String :=
  let filesInfo := String.intercalate "\n"
    (cd.files.map (fun f =>
      "- " ++ f.filename ++ " (" ++ f.status ++ "): +" ++ toString f.additions
        ++ "/-" ++ toString f.deletions))
  "다음 Git 커밋을 분석하고 어떤 작업을 했는지 한국어로 간단히 요약해주세요 (2-3문장):\n\n커밋 메시지: "
    ++ cd.message ++ "\n\n변경된 파일:\n" ++ filesInfo ++ "\n\n통계: +"
    ++ toString cd.additions ++ "/-" ++ toString cd.deletions ++ " ("
    ++ toString cd.filesChanged ++ "개 파일)"

/-- Whitespace for the purposes of `String.prototype.trim` (the forms that
occur in chat responses). -/
def isWs (c : Char) : Bool := c = ' ' || c = '\t' || c = '\n' || c = '\r'

/-- Executable model of JavaScript `s.trim()`: strip leading and trailing
whitespace. -/
def jsTrim (s : String) : String :=
  String.mk (((s.data.dropWhile isWs).reverse.dropWhile isWs).reverse)

/-- Model of `GitHubCommitFetcher.analyzeCommitWithAI` (part_001 lines 273-309):
`none` when no Mistral client is configured; builds the prompt and invokes
the capability; a thrown error is caught and collapsed to `none`; the
response content is returned trimmed when it is a plain string and collapsed
to `none` otherwise. -/
def analyzeCommitWithAI (mistral : Bool) (api : String → ChatOutcome)
    (cd : CommitData) : Option String :=
  if !mistral then none
  else
    match api (buildPrompt cd) with
    | ChatOutcome.err => none
    | ChatOutcome.response c =>
      match c with
      | some (ChatContent.str s) => some (jsTrim s)
      | _ => none

/-- A commit reference from a listing call: the fields the loops use
(`commit.sha`, which GitHub returns in full form, and the author display
name `commit.commit.author.name`). -/
structure CommitRef where
  sha : String
  authorName : String
deriving DecidableEq, Repr

/-- Observable side effects of a batch run, in order: a progress report to
the job queue, a listing call, a per-commit detail fetch, an annotation-model
invocation, a datastore upsert (with its returned flag). -/
inductive FxEvent where
  | progressReport (p : Nat)
  | listCall (repo : String)
  | detailCall (repo sha : String)
  | aiCall (fullSha : String)
  | dbWrite (fullSha : String) (ok : Bool)
deriving DecidableEq, Repr

/-- One entry of the per-commit result list pushed by the worker. -/
structure ResEntry where
  sha : String
  repo : String
  message : String
  author : String
  filesChanged : Int
  additions : Int
  deletions : Int
  aiSummary : Option String
deriving DecidableEq, Repr

/-- The value of `message.split("\n")[0]`, via the character list (kernel-executable). -/
def firstLine (s : String) : String :=
  ((s.data.splitOn '\n').map String.mk).headD ""

/-- The value of `repoStr.split("/")`, via the character list (kernel-executable); agrees
with the JavaScript semantics: `"" → [""]`, `"a/" → ["a", ""]`. -/
def jsSplitSlash (s : String) : List String :=
  (s.data.splitOn '/').map String.mk

/-- The value of `Math.round((num / den) * 100)` for natural `num`, `den` (`den > 0` in
every reachable call): round-half-up of `num * 100 / den`. -/
def jsRoundDiv (num den : Nat) : Nat :=
  (2 * (num * 100) + den) / (2 * den)

/-- The environment of a batch-fetch run: configuration values and the
external collaborators (remote gateway, summarization capability, SQLite
fault model, wall clock). -/
structure FetchEnv where
  githubToken : Option String
  mistralApiKey : Option String
  listCommits : String → List CommitRef
  getDetail : String → String → Option CommitData
  aiOutcome : String → ChatOutcome
  sql : SqlEnv
  now : String

/-- Running state threaded through a batch run: the datastore, the results
accumulator, and the emitted effect trace. -/
structure WSt where
  db : DBState
  results : List ResEntry
  events : List FxEvent
deriving Repr

/-- Append one effect event. -/
def WSt.log (st : WSt) (e : FxEvent) : WSt :=
  { st with events := st.events ++ [e] }

/-- The result-list entry built by the worker for one saved commit. -/
def resEntryOf (cd : CommitData) (ai : Option String) : ResEntry :=
  { sha := cd.sha, repo := cd.repo, message := firstLine cd.message,
    author := cd.author, filesChanged := cd.filesChanged,
    additions := cd.additions, deletions := cd.deletions, aiSummary := ai }

/-- The per-commit body of the `fetch-commits` worker (part_007
lines 132-168): fetch the detail (always, before any datastore check); on
fetch failure skip the reference; otherwise query the store by full hash,
reuse a stored truthy annotation, else invoke the annotation engine when a
Mistral client exists; then upsert and, when the upsert reports success,
push a result entry. -/
def processCommitWk (env : FetchEnv) (mistral : Bool) (repoStr : String)
    (st : WSt) (ref : CommitRef) : WSt :=
  let st1 := st.log (FxEvent.detailCall repoStr ref.sha)
  match env.getDetail repoStr ref.sha with
  | none => st1
  | some details =>
    let existing := getCommitFromDB st1.db details.fullSha
    let existingTruthy := match existing with
                          | some ai => jsTruthyStr ai
                          | none => false
    let aiPair : Option String × WSt :=
      if existingTruthy then
        ((match existing with | some ai => ai | none => none), st1)
      else if mistral then
        (analyzeCommitWithAI true env.aiOutcome details,
         st1.log (FxEvent.aiCall details.fullSha))
      else (none, st1)
    let st2 := aiPair.2
    let save := saveCommitToDB env.sql st2.db details aiPair.1 env.now
    let st3 : WSt :=
      { st2 with db := save.2,
                 events := st2.events ++ [FxEvent.dbWrite details.fullSha save.1] }
    if save.1 then { st3 with results := st3.results ++ [resEntryOf details aiPair.1] }
    else st3

/-- The repository loop of the `fetch-commits` worker (part_007
lines 110-170): for each repository, split `"owner/name"` and skip invalid
entries; otherwise report progress `round(((i+1)/total)*100)` (before any
work on the repository), list the commits, and process the first `limit`
references. -/
def runRepos (env : FetchEnv) (mistral : Bool) (total limit : Nat) :
    Nat → List String → WSt → WSt
  | _, [], st => st
  | i, repoStr :: rest, st =>
    let parts := jsSplitSlash repoStr
    let owner := parts.getD 0 ""
    let name := parts.getD 1 ""
    if owner == "" || name == "" then
      runRepos env mistral total limit (i + 1) rest st
    else
      let st1 := st.log (FxEvent.progressReport (jsRoundDiv (i + 1) total))
      let st2 := st1.log (FxEvent.listCall repoStr)
      let commits := env.listCommits repoStr
      let st3 := (commits.take limit).foldl (processCommitWk env mistral repoStr) st2
      runRepos env mistral total limit (i + 1) rest st3

/-- The aggregate result returned by the `fetch-commits` worker. -/
structure WkResult where
  success : Bool
  collected : Nat
  results : List ResEntry
deriving DecidableEq, Repr

/-- The `fetch-commits` branch of the worker registered with the job queue
(part_007 lines 72-179): throws when no GitHub token is configured;
otherwise enables Mistral only when `useAI` is set and an API key is
configured, iterates the repositories, and returns
`{ success: true, collected, results }`.  The returned triple is the worker
outcome, the datastore after the run, and the effect trace. -/
def runFetchCommits (env : FetchEnv) (db : DBState) (repos : List String)
    (limit : Nat) (useAI : Bool) : Except String WkResult × DBState × List FxEvent :=
  if !jsTruthyStr env.githubToken then
    (Except.error "GitHub token not configured. Please generate a GitHub Personal Access Token at https://github.com/settings/tokens and configure it in the settings.",
     db, [])
  else
    let mistral := useAI && jsTruthyStr env.mistralApiKey
    let st := runRepos env mistral repos.length limit 0 repos { db := db, results := [], events := [] }
    (Except.ok { success := true, collected := st.results.length, results := st.results },
     st.db, st.events)

/-- The per-commit body of the full-collection script's loop (part_000
lines 575-642): skip blacklisted authors outright; then check the store by
the listing hash *before* any detail fetch and skip fully-processed commits
entirely (no detail fetch, no annotation, no write); otherwise fetch detail,
annotate when enabled, and upsert. -/
def mainCommitStep (env : FetchEnv) (mistral : Bool) (blacklist : List String)
    (repoStr : String) (st : WSt) (ref : CommitRef) : WSt :=
  if 0 < blacklist.length && blacklist.contains ref.authorName then st
  else
    let existing := getCommitFromDB st.db ref.sha
    let existingTruthy := match existing with
                          | some ai => jsTruthyStr ai
                          | none => false
    if existingTruthy then st
    else
      let st1 := st.log (FxEvent.detailCall repoStr ref.sha)
      match env.getDetail repoStr ref.sha with
      | none => st1
      | some details =>
        let cd : CommitData := { details with repo := repoStr }
        let aiPair : Option String × WSt :=
          if existingTruthy then
            ((match existing with | some ai => ai | none => none), st1)
          else if mistral then
            (analyzeCommitWithAI true env.aiOutcome cd,
             st1.log (FxEvent.aiCall cd.fullSha))
          else (none, st1)
        let st2 := aiPair.2
        let save := saveCommitToDB env.sql st2.db cd aiPair.1 env.now
        let st3 : WSt :=
          { st2 with db := save.2,
                     events := st2.events ++ [FxEvent.dbWrite cd.fullSha save.1] }
        if save.1 then { st3 with results := st3.results ++ [resEntryOf cd aiPair.1] }
        else st3

/-! ### Claim C7: annotation failure containment -/

/-- A small concrete commit used by the C7 theorems. -/
def cdC7 : CommitData :=
  { sha := "abc1234", fullSha := "abc1234def", repo := "o/r", message := "fix bug",
    author := "alice", authorEmail := "a@x", date := "D", additions := 1,
    deletions := 2, totalChanges := 3, filesChanged := 1,
    files := [{ filename := "a.ts", status := "modified", additions := 1,
                deletions := 2, changes := 3, patch := none }] }

/-! ### Claim C3: persistence failure does not fail the job -/

/-- A fault model in which the commit-row insert always raises a transaction
error. -/
def sqlFailC3 : SqlEnv :=
  { commitInsertFails := fun _ => true, fileInsertFails := fun _ => false }

/-- Concrete commit detail for the C3 scenario. -/
def cdC3 : CommitData :=
  { sha := "abc1234", fullSha := "F", repo := "o/r", message := "m",
    author := "alice", authorEmail := "a@x", date := "D", additions := 1,
    deletions := 0, totalChanges := 1, filesChanged := 0, files := [] }

/-- Environment for the C3 scenario: token configured, one commit listed,
its detail fetch succeeds, and every upsert hits a transaction error. -/
def envC3 : FetchEnv :=
  { githubToken := some "tok", mistralApiKey := none,
    listCommits := fun _ => [{ sha := "F", authorName := "alice" }],
    getDetail := fun _ _ => some cdC3,
    aiOutcome := fun _ => ChatOutcome.err,
    sql := sqlFailC3, now := "T" }

/-- Empty datastore for the C3 scenario. -/
def dbC3 : DBState := { commits := [], commit_files := [] }

/-- A run with the worker registered and one job dispatched, for the C3
witness. -/
def c3run : QState :=
  step (Act.add JobType.fetchCommits "d" 1) (step Act.setw QState.start)

/-- The stored row of the already fully-processed commit in the C4
scenario: `full_sha` `"F"`, with a non-null annotation. -/
def rowC4 : CommitRow :=
  { sha := "abc1234", full_sha := "F", repo := "o/r", message := "m",
    author := "alice", author_email := "a@x", date := "D", additions := 1,
    deletions := 0, total_changes := 1, files_changed := 0,
    ai_summary := some "done", ai_analyzed_at := some "T0" }

/-- Datastore already holding the fully-processed commit. -/
def dbC4 : DBState := { commits := [rowC4], commit_files := [] }

/-- Fault-free SQLite model for the C4 scenario. -/
def sqlOkC4 : SqlEnv :=
  { commitInsertFails := fun _ => false, fileInsertFails := fun _ => false }

/-- The re-listed detail of the same commit. -/
def cdC4 : CommitData :=
  { sha := "abc1234", fullSha := "F", repo := "o/r", message := "m",
    author := "alice", authorEmail := "a@x", date := "D", additions := 1,
    deletions := 0, totalChanges := 1, filesChanged := 0, files := [] }

/-- Environment for the C4 scenario: annotation enabled, the gateway lists
the already-processed commit again. -/
def envC4 : FetchEnv :=
  { githubToken := some "tok", mistralApiKey := some "k",
    listCommits := fun _ => [{ sha := "F", authorName := "alice" }],
    getDetail := fun _ _ => some cdC4,
    aiOutcome := fun _ => ChatOutcome.response (some (ChatContent.str "fresh")),
    sql := sqlOkC4, now := "T1" }

/-- Environment for the C8 counterexample: token configured, the listing of
the single repository returns no commits. -/
def envC8 : FetchEnv :=
  { githubToken := some "tok", mistralApiKey := none,
    listCommits := fun _ => [],
    getDetail := fun _ _ => none,
    aiOutcome := fun _ => ChatOutcome.err,
    sql := { commitInsertFails := fun _ => false, fileInsertFails := fun _ => false },
    now := "T" }

/-- Empty datastore for the C8 scenario. -/
def dbC8 : DBState := { commits := [], commit_files := [] }

/-! ## Lemmas and claim theorems -/

theorem evStart_enqueued (i : Nat) : evStart (Event.enqueued i) = none := rfl

theorem evStart_progressed (i p : Nat) : evStart (Event.progressed i p) = none := rfl

theorem evStart_resolved (i : Nat) (b : Bool) : evStart (Event.resolved i b) = none := rfl

theorem enqIds_append (t1 t2 : List Event) :
    enqIds (t1 ++ t2) = enqIds t1 ++ enqIds t2 := by
  simp [enqIds, List.filterMap_append]

theorem startIds_append (t1 t2 : List Event) :
    startIds (t1 ++ t2) = startIds t1 ++ startIds t2 := by
  simp [startIds, List.filterMap_append]

theorem srStep_none (e : Event) : srStep none e = none := rfl

/-- Once the automaton has rejected, it stays rejected. -/
theorem srFold_none (u : List Event) : u.foldl srStep none = none := by
  induction u with
  | nil => rfl
  | cons e u ih => simpa [srStep] using ih

/-- A rejected prefix rejects the whole trace: contrapositive form used to
extract well-formedness of prefixes. -/
theorem srFold_append (u v : List Event) (a : Option (Option Nat)) :
    (u ++ v).foldl srStep a = v.foldl srStep (u.foldl srStep a) := by
  simp [List.foldl_append]

/-! ### Basic lemmas about the job map -/

theorem findJob_append_left {js : List Job} {i : Nat} {j : Job} (l : List Job)
    (h : findJob js i = some j) : findJob (js ++ l) i = some j := by
  induction js with
  | nil => simp [findJob] at h
  | cons a rest ih =>
    by_cases ha : a.id = i
    · simpa [findJob, List.find?_cons_of_pos, ha] using h
    · simp only [findJob, List.cons_append, List.find?_cons_of_neg, beq_iff_eq, ha,
        not_false_iff] at h ⊢
      exact ih h

theorem findJob_append_right {js : List Job} {i : Nat} (l : List Job)
    (h : findJob js i = none) : findJob (js ++ l) i = findJob l i := by
  induction js with
  | nil => simp [findJob]
  | cons a rest ih =>
    by_cases ha : a.id = i
    · simp [findJob, List.find?_cons_of_pos, ha] at h
    · simp only [findJob, List.cons_append, List.find?_cons_of_neg, beq_iff_eq, ha,
        not_false_iff] at h ⊢
      exact ih h

theorem findJob_eq_none_of_lt {js : List Job} {n : Nat}
    (h : ∀ i ∈ js.map Job.id, i < n) : findJob js n = none := by
  induction js with
  | nil => rfl
  | cons a rest ih =>
    have ha : a.id < n := h a.id (by simp)
    have : ¬ (a.id = n) := Nat.ne_of_lt ha
    simp only [findJob, List.find?_cons_of_neg, beq_iff_eq, this, not_false_iff]
    exact ih (fun i hi => h i (by simp_all))

theorem findJob_setJob_self {js : List Job} {i : Nat} {j : Job} {f : Job → Job}
    (hf : ∀ a, (f a).id = a.id) (h : findJob js i = some j) :
    findJob (setJob js i f) i = some (f j) := by
  induction js with
  | nil => simp [findJob] at h
  | cons a rest ih =>
    by_cases ha : a.id = i
    · simp only [findJob, List.find?_cons_of_pos, beq_iff_eq, ha] at h
      cases h
      simp [setJob, findJob, ha, List.find?_cons_of_pos, hf]
    · have hja : findJob rest i = some j := by
        simpa [findJob, List.find?_cons_of_neg, beq_iff_eq, ha] using h
      have := ih hja
      simpa [setJob, findJob, ha, List.find?_cons_of_neg, beq_iff_eq] using this

theorem setJob_cons (a : Job) (rest : List Job) (k : Nat) (f : Job → Job) :
    setJob (a :: rest) k f = (if a.id == k then f a else a) :: setJob rest k f := rfl

theorem findJob_setJob_ne {js : List Job} {i k : Nat} {f : Job → Job}
    (hf : ∀ a, (f a).id = a.id) (hik : i ≠ k) :
    findJob (setJob js k f) i = findJob js i := by
  induction js with
  | nil => rfl
  | cons a rest ih =>
    rw [setJob_cons]
    by_cases hk : a.id = k
    · have h1 : (f a).id = a.id := hf a
      have h2 : ¬ (a.id = i) := by
        intro hc; exact hik (hc ▸ hk ▸ rfl)
      have h3 : ¬ ((f a).id = i) := by rw [h1]; exact h2
      rw [if_pos (by exact beq_iff_eq.mpr hk)]
      show List.find? (fun j => j.id == i) (f a :: setJob rest k f) = _
      rw [List.find?_cons_of_neg _ (by simpa using h3), findJob,
        List.find?_cons_of_neg _ (by simpa using h2)]
      exact ih
    · rw [if_neg (by simpa using hk)]
      by_cases hi : a.id = i
      · show List.find? (fun j => j.id == i) (a :: setJob rest k f) = _
        rw [List.find?_cons_of_pos _ (by simpa using hi), findJob,
          List.find?_cons_of_pos _ (by simpa using hi)]
      · show List.find? (fun j => j.id == i) (a :: setJob rest k f) = _
        rw [List.find?_cons_of_neg _ (by simpa using hi), findJob,
          List.find?_cons_of_neg _ (by simpa using hi)]
        exact ih

theorem setJob_map_id {js : List Job} {k : Nat} {f : Job → Job}
    (hf : ∀ a, (f a).id = a.id) :
    (setJob js k f).map Job.id = js.map Job.id := by
  induction js with
  | nil => rfl
  | cons a rest ih =>
    by_cases hk : a.id = k
    · simp [setJob, hk, hf] at ih ⊢; exact ih
    · simp [setJob, hk] at ih ⊢; exact ih

theorem findJob_filter {js : List Job} {i : Nat} {j : Job} {q : Job → Bool}
    (h : findJob js i = some j) (hq : q j = true) :
    findJob (js.filter q) i = some j := by
  induction js with
  | nil => simp [findJob] at h
  | cons a rest ih =>
    by_cases ha : a.id = i
    · simp only [findJob, List.find?_cons_of_pos, beq_iff_eq, ha] at h
      cases h
      by_cases hqa : q j = true
      · simp [findJob, List.filter_cons, hqa, List.find?_cons_of_pos, ha]
      · exact absurd hq hqa
    · have hja : findJob rest i = some j := by
        simpa [findJob, List.find?_cons_of_neg, beq_iff_eq, ha] using h
      by_cases hqa : q a = true
      · simpa [findJob, List.filter_cons, hqa, List.find?_cons_of_neg, beq_iff_eq, ha]
          using ih hja
      · simpa [findJob, List.filter_cons, hqa] using ih hja

/-! ### The queue invariant -/

theorem srTrace_append_one (tr : List Event) (e : Event) :
    srTrace (tr ++ [e]) = srStep (srTrace tr) e := by
  simp [srTrace, List.foldl_append]

theorem mem_startIds {tr : List Event} {i : Nat} (h : Event.started i ∈ tr) :
    i ∈ startIds tr :=
  List.mem_filterMap.mpr ⟨_, h, rfl⟩

theorem started_mem_of_startIds {tr : List Event} {i : Nat} (h : i ∈ startIds tr) :
    Event.started i ∈ tr := by
  rcases List.mem_filterMap.mp h with ⟨e, he, hev⟩
  cases e with
  | enqueued j => simp [evStart] at hev
  | started j => simp [evStart] at hev; exact hev ▸ he
  | progressed j p => simp [evStart] at hev
  | resolved j b => simp [evStart] at hev

theorem QInv.sq_nodup {s : QState} (h : QInv s) :
    (startIds s.trace ++ s.queue).Nodup :=
  List.Nodup.sublist h.sub (List.nodup_range _)

theorem QInv.running_none {s : QState} (h : QInv s) (hp : s.processing = false) :
    s.running = none := by
  cases hr : s.running with
  | none => rfl
  | some i => rw [h.proc_run, hr] at hp; simp at hp

theorem processNextFuel_busy (fuel t : Nat) (s : QState) (hp : s.processing = true) :
    processNextFuel (Nat.succ fuel) t s = s := by
  rw [processNextFuel, if_pos hp]

theorem processNextFuel_empty (fuel t : Nat) (s : QState) (hp : s.processing = false)
    (hq : s.queue = []) : processNextFuel (Nat.succ fuel) t s = s := by
  rw [processNextFuel, if_neg (by simp [hp]), hq]

theorem processNextFuel_start (fuel t : Nat) (s : QState) (jid : Nat) (rest : List Nat)
    (hp : s.processing = false) (hq : s.queue = jid :: rest)
    (hc : ((findJob s.jobs jid).isSome && s.workerSet) = true) :
    processNextFuel (Nat.succ fuel) t s = startJob t jid rest s := by
  rw [processNextFuel, if_neg (by simp [hp]), hq]
  exact if_pos hc

theorem processNextFuel_drop (fuel t : Nat) (s : QState) (jid : Nat) (rest : List Nat)
    (hp : s.processing = false) (hq : s.queue = jid :: rest)
    (hc : ¬ ((findJob s.jobs jid).isSome && s.workerSet) = true) :
    processNextFuel (Nat.succ fuel) t s
      = processNextFuel fuel t { s with processing := false, queue := rest } := by
  rw [processNextFuel, if_neg (by simp [hp]), hq]
  exact if_neg hc

theorem qinv_processNextFuel : ∀ (fuel t : Nat) (s : QState),
    QInv s → QInv (processNextFuel fuel t s)
  | 0, _, _, h => h
  | Nat.succ fuel, t, s, h => by
    by_cases hp : s.processing = true
    · rw [processNextFuel_busy fuel t s hp]; exact h
    · have hpf : s.processing = false := by simpa using hp
      cases hq : s.queue with
      | nil => rw [processNextFuel_empty fuel t s hpf hq]; exact h
      | cons jid rest =>
        have hrn : s.running = none := h.running_none hpf
        have hnodup : (startIds s.trace ++ (jid :: rest)).Nodup := hq ▸ h.sq_nodup
        have hqnodup : (jid :: rest).Nodup := hnodup.of_append_right
        have hjr : jid ∉ rest := (List.nodup_cons.mp hqnodup).1
        by_cases hc : ((findJob s.jobs jid).isSome && s.workerSet) = true
        · rw [processNextFuel_start fuel t s jid rest hpf hq hc]
          have hws : s.workerSet = true := by
            have h2 := hc; simp only [Bool.and_eq_true] at h2; exact h2.2
          rcases h.queue_pending jid (by rw [hq]; exact List.mem_cons_self _ _)
            with ⟨j0, hj0, hj0p⟩
          have hf : ∀ a : Job,
              (({ a with status := JStatus.processing, startedAt := some t } : Job)).id
                = a.id := fun a => rfl
          refine ⟨?_, ?_, ?_, ?_, ?_, ?_, ?_, ?_, ?_, ?_⟩
          · show enqIds (s.trace ++ [Event.started jid]) = List.range s.nextId
            rw [enqIds_append]
            simpa [enqIds, evEnq] using h.enq_range
          · show srTrace (s.trace ++ [Event.started jid]) = some (some jid)
            rw [srTrace_append_one, h.sr, hrn]; rfl
          · show (startIds (s.trace ++ [Event.started jid]) ++ rest).Sublist
              (List.range s.nextId)
            rw [startIds_append]
            have : startIds [Event.started jid] = [jid] := rfl
            rw [this, List.append_assoc, List.singleton_append]
            exact hq ▸ h.sub
          · rfl
          · intro i _; exact hws
          · intro i hi
            have hir : i ∈ rest := hi
            have hine : i ≠ jid := fun hc2 => hjr (hc2 ▸ hir)
            rcases h.queue_pending i (by rw [hq]; exact List.mem_cons_of_mem _ hir)
              with ⟨j, hj, hjp⟩
            refine ⟨j, ?_, hjp⟩
            show findJob (setJob s.jobs jid
              (fun j => { j with status := JStatus.processing, startedAt := some t })) i
                = some j
            rw [findJob_setJob_ne hf hine]; exact hj
          · intro i hi
            have hi2 : i ∈ List.map Job.id (setJob s.jobs jid
                (fun j => { j with status := JStatus.processing, startedAt := some t })) := hi
            rw [setJob_map_id hf] at hi2
            exact h.jobs_lt i hi2
          · intro i hi
            cases hi; exact List.mem_append_right _ (List.mem_singleton.mpr rfl)
          · intro i hi
            cases hi; exact hjr
          · intro i hi
            cases hi
            exact ⟨_, findJob_setJob_self hf hj0, rfl⟩
        · rw [processNextFuel_drop fuel t s jid rest hpf hq hc]
          apply qinv_processNextFuel fuel t
          refine ⟨?_, ?_, ?_, ?_, ?_, ?_, ?_, ?_, ?_, ?_⟩
          · exact h.enq_range
          · show srTrace s.trace = some s.running
            exact h.sr
          · show (startIds s.trace ++ rest).Sublist (List.range s.nextId)
            refine List.Sublist.trans ?_ (hq ▸ h.sub)
            exact List.Sublist.append_left (List.sublist_cons_self _ _) _
          · show false = s.running.isSome
            rw [hrn]; rfl
          · intro i hi; rw [hrn] at hi; cases hi
          · intro i hi
            exact h.queue_pending i (by rw [hq]; exact List.mem_cons_of_mem _ hi)
          · exact h.jobs_lt
          · intro i hi; rw [hrn] at hi; cases hi
          · intro i hi; rw [hrn] at hi; cases hi
          · intro i hi; rw [hrn] at hi; cases hi

theorem qinv_addMid (jt : JobType) (d : String) (t : Nat) (s : QState) (h : QInv s) :
    QInv (addMid jt d t s) := by
  have hidlt : ∀ i, s.running = some i → i < s.nextId := by
    intro i hi
    have h1 : i ∈ startIds s.trace := mem_startIds (h.run_started i hi)
    have h2 : i ∈ List.range s.nextId :=
      h.sub.subset (List.mem_append_left _ h1)
    exact List.mem_range.mp h2
  refine ⟨?_, ?_, ?_, ?_, ?_, ?_, ?_, ?_, ?_, ?_⟩
  · show enqIds (s.trace ++ [Event.enqueued s.nextId]) = List.range (s.nextId + 1)
    rw [enqIds_append, h.enq_range, List.range_succ]; rfl
  · show srTrace (s.trace ++ [Event.enqueued s.nextId]) = some s.running
    rw [srTrace_append_one, h.sr]; rfl
  · show (startIds (s.trace ++ [Event.enqueued s.nextId]) ++ (s.queue ++ [s.nextId])).Sublist
      (List.range (s.nextId + 1))
    rw [startIds_append, List.range_succ]
    have h1 : startIds [Event.enqueued s.nextId] = [] := rfl
    rw [h1, List.append_nil, ← List.append_assoc]
    exact List.Sublist.append h.sub (List.Sublist.refl _)
  · exact h.proc_run
  · exact fun i hi => h.run_worker i hi
  · intro i hi
    rcases List.mem_append.mp hi with hil | hir
    · rcases h.queue_pending i hil with ⟨j, hj, hjp⟩
      exact ⟨j, findJob_append_left _ hj, hjp⟩
    · have hin : i = s.nextId := by simpa using hir
      have hnone : findJob s.jobs i = none := by
        rw [hin]; exact findJob_eq_none_of_lt h.jobs_lt
      refine ⟨newJob jt d t s, ?_, rfl⟩
      show findJob (s.jobs ++ [newJob jt d t s]) i = some (newJob jt d t s)
      rw [findJob_append_right _ hnone, hin]
      simp [findJob, newJob]
  · intro i hi
    have hi2 : i ∈ List.map Job.id (s.jobs ++ [newJob jt d t s]) := hi
    rw [List.map_append] at hi2
    rcases List.mem_append.mp hi2 with hil | hir
    · exact Nat.lt_succ_of_lt (h.jobs_lt i hil)
    · have : i = s.nextId := by simpa [newJob] using hir
      exact this ▸ Nat.lt_succ_self _
  · intro i hi
    exact List.mem_append_left _ (h.run_started i hi)
  · intro i hi
    intro hmem
    rcases List.mem_append.mp hmem with hil | hir
    · exact h.run_not_queued i hi hil
    · have : i = s.nextId := by simpa using hir
      exact absurd (this ▸ hidlt i hi) (Nat.lt_irrefl _)
  · intro i hi
    rcases h.run_job i hi with ⟨j, hj, hjp⟩
    exact ⟨j, findJob_append_left _ hj, hjp⟩

theorem qinv_resolveMid (o : Except (Option String) String) (jid t : Nat) (s : QState)
    (h : QInv s) (hr : s.running = some jid) : QInv (resolveMid o jid t s) := by
  have hnq : jid ∉ s.queue := h.run_not_queued jid hr
  cases o with
  | ok r =>
    have hf : ∀ a : Job,
        (({ a with status := JStatus.completed, result := some r,
                   completedAt := some t } : Job)).id = a.id := fun a => rfl
    refine ⟨?_, ?_, ?_, ?_, ?_, ?_, ?_, ?_, ?_, ?_⟩
    · show enqIds (s.trace ++ [Event.resolved jid true]) = List.range s.nextId
      rw [enqIds_append, h.enq_range]
      have h1 : enqIds [Event.resolved jid true] = [] := rfl
      rw [h1, List.append_nil]
    · show srTrace (s.trace ++ [Event.resolved jid true]) = some none
      rw [srTrace_append_one, h.sr, hr]; simp [srStep]
    · show (startIds (s.trace ++ [Event.resolved jid true]) ++ s.queue).Sublist
        (List.range s.nextId)
      rw [startIds_append]
      have h1 : startIds [Event.resolved jid true] = [] := rfl
      rw [h1, List.append_nil]
      exact h.sub
    · rfl
    · intro i hi; cases hi
    · intro i hi
      have hine : i ≠ jid := fun hc => hnq (hc ▸ hi)
      rcases h.queue_pending i hi with ⟨j, hj, hjp⟩
      refine ⟨j, ?_, hjp⟩
      show findJob (setJob s.jobs jid _) i = some j
      rw [findJob_setJob_ne hf hine]; exact hj
    · intro i hi
      have hi2 : i ∈ List.map Job.id (setJob s.jobs jid
          (fun j => { j with status := JStatus.completed, result := some r,
                             completedAt := some t })) := hi
      rw [setJob_map_id hf] at hi2
      exact h.jobs_lt i hi2
    · intro i hi; cases hi
    · intro i hi; cases hi
    · intro i hi; cases hi
  | error m =>
    have hf : ∀ a : Job,
        (({ a with status := JStatus.failed, error := some (errMsg m),
                   completedAt := some t } : Job)).id = a.id := fun a => rfl
    refine ⟨?_, ?_, ?_, ?_, ?_, ?_, ?_, ?_, ?_, ?_⟩
    · show enqIds (s.trace ++ [Event.resolved jid false]) = List.range s.nextId
      rw [enqIds_append, h.enq_range]
      have h1 : enqIds [Event.resolved jid false] = [] := rfl
      rw [h1, List.append_nil]
    · show srTrace (s.trace ++ [Event.resolved jid false]) = some none
      rw [srTrace_append_one, h.sr, hr]; simp [srStep]
    · show (startIds (s.trace ++ [Event.resolved jid false]) ++ s.queue).Sublist
        (List.range s.nextId)
      rw [startIds_append]
      have h1 : startIds [Event.resolved jid false] = [] := rfl
      rw [h1, List.append_nil]
      exact h.sub
    · rfl
    · intro i hi; cases hi
    · intro i hi
      have hine : i ≠ jid := fun hc => hnq (hc ▸ hi)
      rcases h.queue_pending i hi with ⟨j, hj, hjp⟩
      refine ⟨j, ?_, hjp⟩
      show findJob (setJob s.jobs jid _) i = some j
      rw [findJob_setJob_ne hf hine]; exact hj
    · intro i hi
      have hi2 : i ∈ List.map Job.id (setJob s.jobs jid
          (fun j => { j with status := JStatus.failed, error := some (errMsg m),
                             completedAt := some t })) := hi
      rw [setJob_map_id hf] at hi2
      exact h.jobs_lt i hi2
    · intro i hi; cases hi
    · intro i hi; cases hi
    · intro i hi; cases hi

theorem qinv_updateProgress (jid p : Nat) (s : QState) (h : QInv s) :
    QInv (updateProgress jid p s) := by
  rw [updateProgress]
  cases hfind : findJob s.jobs jid with
  | none => exact h
  | some j0 =>
    have hf : ∀ a : Job, (({ a with progress := some p } : Job)).id = a.id := fun a => rfl
    refine ⟨?_, ?_, ?_, ?_, ?_, ?_, ?_, ?_, ?_, ?_⟩
    · show enqIds (s.trace ++ [Event.progressed jid p]) = List.range s.nextId
      rw [enqIds_append, h.enq_range]
      have h1 : enqIds [Event.progressed jid p] = [] := rfl
      rw [h1, List.append_nil]
    · show srTrace (s.trace ++ [Event.progressed jid p]) = some s.running
      rw [srTrace_append_one, h.sr]; rfl
    · show (startIds (s.trace ++ [Event.progressed jid p]) ++ s.queue).Sublist
        (List.range s.nextId)
      rw [startIds_append]
      have h1 : startIds [Event.progressed jid p] = [] := rfl
      rw [h1, List.append_nil]
      exact h.sub
    · exact h.proc_run
    · exact fun i hi => h.run_worker i hi
    · intro i hi
      rcases h.queue_pending i hi with ⟨j, hj, hjp⟩
      by_cases hij : i = jid
      · subst hij
        refine ⟨{ j with progress := some p }, ?_, hjp⟩
        exact findJob_setJob_self hf hj
      · refine ⟨j, ?_, hjp⟩
        show findJob (setJob s.jobs jid _) i = some j
        rw [findJob_setJob_ne hf hij]; exact hj
    · intro i hi
      have hi2 : i ∈ List.map Job.id (setJob s.jobs jid
          (fun j => { j with progress := some p })) := hi
      rw [setJob_map_id hf] at hi2
      exact h.jobs_lt i hi2
    · intro i hi
      exact List.mem_append_left _ (h.run_started i hi)
    · exact fun i hi => h.run_not_queued i hi
    · intro i hi
      rcases h.run_job i hi with ⟨j, hj, hjp⟩
      by_cases hij : i = jid
      · subst hij
        exact ⟨{ j with progress := some p }, findJob_setJob_self hf hj, hjp⟩
      · refine ⟨j, ?_, hjp⟩
        show findJob (setJob s.jobs jid _) i = some j
        rw [findJob_setJob_ne hf hij]; exact hj

theorem qinv_cleanup (now : Nat) (s : QState) (h : QInv s) :
    QInv (cleanupOldJobs now s) := by
  refine ⟨h.enq_range, h.sr, h.sub, h.proc_run, fun i hi => h.run_worker i hi,
    ?_, ?_, fun i hi => h.run_started i hi, fun i hi => h.run_not_queued i hi, ?_⟩
  · intro i hi
    rcases h.queue_pending i hi with ⟨j, hj, hjp⟩
    refine ⟨j, ?_, hjp⟩
    exact findJob_filter hj (by simp [isStale, hjp])
  · intro i hi
    rcases List.mem_map.mp hi with ⟨j, hjmem, hjid⟩
    exact hjid ▸ h.jobs_lt j.id (List.mem_map.mpr ⟨j, (List.mem_filter.mp hjmem).1, rfl⟩)
  · intro i hi
    rcases h.run_job i hi with ⟨j, hj, hjp⟩
    refine ⟨j, ?_, hjp⟩
    exact findJob_filter hj (by simp [isStale, hjp])

theorem qinv_setWorker (s : QState) (h : QInv s) : QInv (setWorker s) :=
  ⟨h.enq_range, h.sr, h.sub, h.proc_run, fun _ _ => rfl, h.queue_pending, h.jobs_lt,
    h.run_started, h.run_not_queued, h.run_job⟩

theorem qinv_step (a : Act) (s : QState) (h : QInv s) : QInv (step a s) := by
  cases a with
  | add jt d t =>
    show QInv (processNext t (addMid jt d t s))
    exact qinv_processNextFuel _ _ _ (qinv_addMid jt d t s h)
  | resolve o t =>
    show QInv (resolveJob o t s)
    rw [resolveJob]
    cases hr : s.running with
    | none => exact h
    | some jid => exact qinv_processNextFuel _ _ _ (qinv_resolveMid o jid t s h hr)
  | setw => exact qinv_setWorker s h
  | progress jid p => exact qinv_updateProgress jid p s h
  | cleanup t => exact qinv_cleanup t s h

theorem qinv_startState : QInv QState.start := by
  refine ⟨?_, ?_, ?_, ?_, ?_, ?_, ?_, ?_, ?_, ?_⟩ <;>
    simp [QState.start, enqIds, startIds, srTrace, findJob]

theorem reach_qinv {s : QState} (h : Reach s) : QInv s := by
  induction h with
  | start => exact qinv_startState
  | step a h ih => exact qinv_step a _ ih

/-! ### Executions with the worker registered at startup -/

theorem reachW_reach {s : QState} (h : ReachW s) : Reach s := by
  induction h with
  | start =>
    have h0 : Reach (step Act.setw QState.start) := Reach.step Act.setw Reach.start
    exact h0
  | step a h ih => exact Reach.step a ih

theorem pnf_workerSet : ∀ (fuel t : Nat) (s : QState),
    (processNextFuel fuel t s).workerSet = s.workerSet
  | 0, _, _ => rfl
  | Nat.succ fuel, t, s => by
    by_cases hp : s.processing = true
    · rw [processNextFuel_busy fuel t s hp]
    · have hpf : s.processing = false := by simpa using hp
      cases hq : s.queue with
      | nil => rw [processNextFuel_empty fuel t s hpf hq]
      | cons jid rest =>
        by_cases hc : ((findJob s.jobs jid).isSome && s.workerSet) = true
        · rw [processNextFuel_start fuel t s jid rest hpf hq hc]; rfl
        · rw [processNextFuel_drop fuel t s jid rest hpf hq hc]
          exact pnf_workerSet fuel t _

theorem winv_processNextFuel : ∀ (fuel t : Nat) (s : QState), QInv s →
    s.workerSet = true →
    enqIds s.trace = startIds s.trace ++ s.queue →
    enqIds (processNextFuel fuel t s).trace
      = startIds (processNextFuel fuel t s).trace ++ (processNextFuel fuel t s).queue
  | 0, _, _, _, _, he => he
  | Nat.succ fuel, t, s, hqi, hw, he => by
    by_cases hp : s.processing = true
    · rw [processNextFuel_busy fuel t s hp]; exact he
    · have hpf : s.processing = false := by simpa using hp
      cases hq : s.queue with
      | nil => rw [processNextFuel_empty fuel t s hpf hq]; exact he
      | cons jid rest =>
        have hc : ((findJob s.jobs jid).isSome && s.workerSet) = true := by
          rcases hqi.queue_pending jid (by rw [hq]; exact List.mem_cons_self _ _)
            with ⟨j, hj, _⟩
          rw [hj, hw]; rfl
        rw [processNextFuel_start fuel t s jid rest hpf hq hc]
        show enqIds (s.trace ++ [Event.started jid])
          = startIds (s.trace ++ [Event.started jid]) ++ rest
        rw [enqIds_append, startIds_append]
        have h1 : enqIds [Event.started jid] = [] := rfl
        have h2 : startIds [Event.started jid] = [jid] := rfl
        rw [h1, h2, List.append_nil, List.append_assoc, List.singleton_append, ← hq]
        exact he

theorem reachW_winv {s : QState} (h : ReachW s) :
    s.workerSet = true ∧ enqIds s.trace = startIds s.trace ++ s.queue := by
  induction h with
  | start => exact ⟨rfl, rfl⟩
  | @step a s h ih =>
    rcases ih with ⟨hw, he⟩
    have hqi : QInv s := reach_qinv (reachW_reach h)
    cases a with
    | add jt d t =>
      have hmid : enqIds (addMid jt d t s).trace
          = startIds (addMid jt d t s).trace ++ (addMid jt d t s).queue := by
        show enqIds (s.trace ++ [Event.enqueued s.nextId])
          = startIds (s.trace ++ [Event.enqueued s.nextId]) ++ (s.queue ++ [s.nextId])
        rw [enqIds_append, startIds_append]
        have h1 : enqIds [Event.enqueued s.nextId] = [s.nextId] := rfl
        have h2 : startIds [Event.enqueued s.nextId] = [] := rfl
        rw [h1, h2, List.append_nil, ← List.append_assoc, he]
      refine ⟨?_, ?_⟩
      · show (processNextFuel (addMid jt d t s).queue.length t (addMid jt d t s)).workerSet
          = true
        rw [pnf_workerSet]
        exact hw
      · exact winv_processNextFuel _ t _ (qinv_addMid jt d t s hqi) hw hmid
    | resolve o t =>
      cases hr : s.running with
      | none =>
        have hstep : step (Act.resolve o t) s = s := by
          show resolveJob o t s = s
          rw [resolveJob, hr]
        rw [hstep]
        exact ⟨hw, he⟩
      | some jid =>
        have hstep : step (Act.resolve o t) s = processNext t (resolveMid o jid t s) := by
          show resolveJob o t s = _
          rw [resolveJob, hr]
        have hqm : QInv (resolveMid o jid t s) := qinv_resolveMid o jid t s hqi hr
        have hwm : (resolveMid o jid t s).workerSet = true := by
          cases o with
          | ok r => exact hw
          | error m => exact hw
        have hem : enqIds (resolveMid o jid t s).trace
            = startIds (resolveMid o jid t s).trace ++ (resolveMid o jid t s).queue := by
          cases o with
          | ok r =>
            show enqIds (s.trace ++ [Event.resolved jid true])
              = startIds (s.trace ++ [Event.resolved jid true]) ++ s.queue
            rw [enqIds_append, startIds_append]
            have h1 : enqIds [Event.resolved jid true] = [] := rfl
            have h2 : startIds [Event.resolved jid true] = [] := rfl
            rw [h1, h2, List.append_nil, List.append_nil]
            exact he
          | error m =>
            show enqIds (s.trace ++ [Event.resolved jid false])
              = startIds (s.trace ++ [Event.resolved jid false]) ++ s.queue
            rw [enqIds_append, startIds_append]
            have h1 : enqIds [Event.resolved jid false] = [] := rfl
            have h2 : startIds [Event.resolved jid false] = [] := rfl
            rw [h1, h2, List.append_nil, List.append_nil]
            exact he
        rw [hstep]
        refine ⟨?_, winv_processNextFuel _ t _ hqm hwm hem⟩
        show (processNextFuel (resolveMid o jid t s).queue.length t
          (resolveMid o jid t s)).workerSet = true
        rw [pnf_workerSet]
        exact hwm
    | setw => exact ⟨rfl, he⟩
    | progress jid p =>
      cases hfind : findJob s.jobs jid with
      | none =>
        have hstep : step (Act.progress jid p) s = s := by
          show updateProgress jid p s = s
          rw [updateProgress, hfind]
        rw [hstep]
        exact ⟨hw, he⟩
      | some j0 =>
        have hstep : step (Act.progress jid p) s
            = { s with jobs := setJob s.jobs jid (fun j => { j with progress := some p }),
                       trace := s.trace ++ [Event.progressed jid p] } := by
          show updateProgress jid p s = _
          rw [updateProgress, hfind]
        rw [hstep]
        refine ⟨hw, ?_⟩
        show enqIds (s.trace ++ [Event.progressed jid p])
          = startIds (s.trace ++ [Event.progressed jid p]) ++ s.queue
        rw [enqIds_append, startIds_append]
        have h1 : enqIds [Event.progressed jid p] = [] := rfl
        have h2 : startIds [Event.progressed jid p] = [] := rfl
        rw [h1, h2, List.append_nil, List.append_nil]
        exact he
    | cleanup t => exact ⟨hw, he⟩

/-! ### The started/resolved scan lemma and claim C1 -/

theorem srScan (a b : Nat) : ∀ (u : List Event) (c : Option Nat),
    u.foldl srStep (some (some a)) = some c →
    Event.started b ∈ u →
    ∃ v₁ v₂ ok, u = v₁ ++ Event.resolved a ok :: v₂ ∧ Event.started b ∈ v₂ ∧
      ∀ e ∈ v₁, evStart e = none ∧ evRes e = none := by
  intro u
  induction u with
  | nil => intro c _ hb; cases hb
  | cons e u ih =>
    intro c hfold hb
    rw [List.foldl_cons] at hfold
    cases e with
    | started j =>
      exfalso
      have h1 : srStep (some (some a)) (Event.started j) = none := rfl
      rw [h1, srFold_none] at hfold
      cases hfold
    | resolved j ok =>
      by_cases hij : a = j
      · subst hij
        refine ⟨[], u, ok, by simp, ?_, by intro e he; cases he⟩
        rcases List.mem_cons.mp hb with hhd | htl
        · cases hhd
        · exact htl
      · exfalso
        have h1 : srStep (some (some a)) (Event.resolved j ok) = none := by
          simp [srStep, hij]
        rw [h1, srFold_none] at hfold
        cases hfold
    | enqueued j =>
      have h1 : srStep (some (some a)) (Event.enqueued j) = some (some a) := rfl
      rw [h1] at hfold
      have hbu : Event.started b ∈ u := by
        rcases List.mem_cons.mp hb with hhd | htl
        · cases hhd
        · exact htl
      rcases ih c hfold hbu with ⟨v₁, v₂, ok, hu, hbv, hcl⟩
      refine ⟨Event.enqueued j :: v₁, v₂, ok, by rw [hu]; rfl, hbv, ?_⟩
      intro e he
      rcases List.mem_cons.mp he with hhd | htl
      · subst hhd; exact ⟨rfl, rfl⟩
      · exact hcl e htl
    | progressed j p =>
      have h1 : srStep (some (some a)) (Event.progressed j p) = some (some a) := rfl
      rw [h1] at hfold
      have hbu : Event.started b ∈ u := by
        rcases List.mem_cons.mp hb with hhd | htl
        · cases hhd
        · exact htl
      rcases ih c hfold hbu with ⟨v₁, v₂, ok, hu, hbv, hcl⟩
      refine ⟨Event.progressed j p :: v₁, v₂, ok, by rw [hu]; rfl, hbv, ?_⟩
      intro e he
      rcases List.mem_cons.mp he with hhd | htl
      · subst hhd; exact ⟨rfl, rfl⟩
      · exact hcl e htl

/-- In a well-formed trace, the accumulator after a prefix is defined. -/
theorem srFold_prefix {u v : List Event} {c : Option Nat}
    (h : (u ++ v).foldl srStep (some none) = some c) :
    ∃ c₁, u.foldl srStep (some none) = some c₁ := by
  rw [srFold_append] at h
  cases hu : u.foldl srStep (some none) with
  | none => rw [hu, srFold_none] at h; cases h
  | some c₁ => exact ⟨c₁, rfl⟩

/-- After a prefix followed by a `started x` event, the open invocation is
exactly `x`. -/
theorem srFold_after_start {u w : List Event} {c : Option Nat} {x : Nat}
    (h : (u ++ Event.started x :: w).foldl srStep (some none) = some c) :
    w.foldl srStep (some (some x)) = some c := by
  rw [srFold_append] at h
  rcases srFold_prefix (u := u) (v := Event.started x :: w)
    (by rw [srFold_append]; exact h) with ⟨c₁, hc₁⟩
  rw [hc₁, List.foldl_cons] at h
  cases c₁ with
  | none => exact h
  | some d =>
    exfalso
    have h1 : srStep (some (some d)) (Event.started x) = none := rfl
    rw [h1, srFold_none] at h
    cases h

/-- C1.  At most one worker invocation is ever in flight: in every reachable
state of the queue, whenever the emitted lifecycle trace contains two
`job-started` events (for jobs `x` and then `y`), a terminal `job-completed`
or `job-failed` event for `x` lies strictly between them — the queue never
begins executing a job while a previously dispatched job's worker invocation
has not yet resolved.  The mutual exclusion is enforced by the single
`processing` flag checked and set in `processNext`. -/
theorem C1_single_flight (s : QState) (hs : Reach s) (x y : Nat)
    (u₁ u₂ u₃ : List Event)
    (hsplit : s.trace = u₁ ++ (Event.started x :: (u₂ ++ (Event.started y :: u₃)))) :
    ∃ ok, Event.resolved x ok ∈ u₂ := by
  have hsr : srTrace s.trace = some s.running := (reach_qinv hs).sr
  rw [hsplit] at hsr
  simp only [srTrace] at hsr
  have hW : (u₂ ++ Event.started y :: u₃).foldl srStep (some (some x)) = some s.running :=
    srFold_after_start hsr
  rcases srScan x y (u₂ ++ Event.started y :: u₃) s.running hW
      (List.mem_append_right _ (List.mem_cons_self _ _))
    with ⟨v₁, v₂, ok, hdecomp, _, hclean⟩
  rcases List.append_eq_append_iff.mp hdecomp with ⟨w, hv₁, hw⟩ | ⟨w, hu₂, hw⟩
  · exfalso
    cases w with
    | nil =>
      rw [List.nil_append] at hw
      injection hw with h1 h2
      exact Event.noConfusion h1
    | cons e w' =>
      rw [List.cons_append] at hw
      injection hw with h1 h2
      have hev : e ∈ v₁ := by
        rw [hv₁]
        exact List.mem_append_right _ (List.mem_cons_self _ _)
      have hcl := (hclean e hev).1
      rw [← h1] at hcl
      exact Option.noConfusion hcl
  · cases w with
    | nil =>
      rw [List.nil_append] at hw
      injection hw with h1 h2
      exact absurd h1 (fun hc => Event.noConfusion hc)
    | cons e w' =>
      rw [List.cons_append] at hw
      injection hw with h1 h2
      refine ⟨ok, ?_⟩
      rw [hu₂, h1]
      exact List.mem_append_right _ (List.mem_cons_self _ _)

theorem C1_single_flight_witness :
    ∃ ok, Event.resolved 0 ok ∈ [Event.resolved 0 true, Event.enqueued 1] :=
  C1_single_flight c1run
    (Reach.step (Act.add JobType.fetchAll "e" 3)
      (Reach.step (Act.resolve (Except.ok "r") 2)
        (Reach.step (Act.add JobType.fetchCommits "d" 1)
          (Reach.step Act.setw Reach.start))))
    0 1 [Event.enqueued 0] [Event.resolved 0 true, Event.enqueued 1] []
    (by decide)

/-! ### Claim C2: strict FIFO order -/

theorem enqIds_cons_enq (a : Nat) (w : List Event) :
    enqIds (Event.enqueued a :: w) = a :: enqIds w := by
  simp [enqIds, List.filterMap_cons, evEnq]

theorem startIds_cons_started (a : Nat) (w : List Event) :
    startIds (Event.started a :: w) = a :: startIds w := by
  simp [startIds, List.filterMap_cons, evStart]

theorem mem_enqIds {tr : List Event} {i : Nat} (h : Event.enqueued i ∈ tr) :
    i ∈ enqIds tr :=
  List.mem_filterMap.mpr ⟨_, h, rfl⟩

theorem range_split_lt {n a b : Nat} {L R : List Nat}
    (h : List.range n = L ++ a :: R) (hb : b ∈ R) : a < b := by
  have hp : (L ++ a :: R).Pairwise (· < ·) := h ▸ List.pairwise_lt_range n
  have hp2 : (a :: R).Pairwise (· < ·) :=
    List.Pairwise.sublist (List.sublist_append_right _ _) hp
  exact (List.pairwise_cons.mp hp2).1 b hb

/-- C2.  Jobs run in strict FIFO enqueue order: in any execution in which the
worker was registered at startup (as the server does at module load), if job
`a` was enqueued strictly before job `b` and `b`'s worker invocation has
started, then the trace decomposes as: `a` started, later `a` resolved, and
only after that `b` started.  So `a` starts and finishes before `b` starts,
whatever the durations: the queue never reorders or prioritizes waiting
jobs. -/
theorem C2_fifo (s : QState) (hw : ReachW s) (a b : Nat) (w₁ w₂ : List Event)
    (henq : s.trace = w₁ ++ (Event.enqueued a :: w₂)) (hb2 : Event.enqueued b ∈ w₂)
    (hbstart : Event.started b ∈ s.trace) :
    ∃ u₁ u₂ u₃ ok,
      s.trace = u₁ ++ (Event.started a :: (u₂ ++ (Event.resolved a ok :: u₃)))
        ∧ Event.started b ∈ u₃ := by
  have hqi : QInv s := reach_qinv (reachW_reach hw)
  rcases reachW_winv hw with ⟨_, heq⟩
  -- the enqueue order is the id order
  have hsplit : List.range s.nextId = enqIds w₁ ++ a :: enqIds w₂ := by
    rw [← hqi.enq_range, henq, enqIds_append, enqIds_cons_enq]
  have hab : a < b := range_split_lt hsplit (mem_enqIds hb2)
  -- the started ids form an initial segment of the id order
  have hrange : List.range s.nextId = startIds s.trace ++ s.queue := by
    rw [← hqi.enq_range, heq]
  have htake : startIds s.trace = (List.range s.nextId).take (startIds s.trace).length := by
    rw [hrange, List.take_left]
  have hstartRange : startIds s.trace
      = List.range (min (startIds s.trace).length s.nextId) := by
    conv_lhs => rw [htake]
    exact List.take_range _ _
  have hbmem : b ∈ startIds s.trace := mem_startIds hbstart
  have hblt : b < min (startIds s.trace).length s.nextId :=
    List.mem_range.mp (hstartRange ▸ hbmem)
  have hamem : a ∈ startIds s.trace := by
    rw [hstartRange]
    exact List.mem_range.mpr (Nat.lt_trans hab hblt)
  have hastart : Event.started a ∈ s.trace := started_mem_of_startIds hamem
  rcases List.append_of_mem hastart with ⟨p, q, hdecomp⟩
  -- started b occurs after started a
  have hbq : Event.started b ∈ q := by
    have hpw : (startIds s.trace).Pairwise (· < ·) := by
      rw [hstartRange]; exact List.pairwise_lt_range _
    have hsid : startIds s.trace = startIds p ++ a :: startIds q := by
      rw [hdecomp, startIds_append, startIds_cons_started]
    rw [hsid] at hpw
    rw [hdecomp] at hbstart
    rcases List.mem_append.mp hbstart with hbp | hbaq
    · exfalso
      have hbs : b ∈ startIds p := mem_startIds hbp
      have hba : b < a :=
        (List.pairwise_append.mp hpw).2.2 b hbs a (List.mem_cons_self _ _)
      exact Nat.lt_asymm hab hba
    · rcases List.mem_cons.mp hbaq with hhd | htl
      · exfalso
        injection hhd with hba
        exact Nat.lt_irrefl a (hba ▸ hab)
      · exact htl
  -- scan the suffix after started a
  have hsr : srTrace s.trace = some s.running := hqi.sr
  rw [hdecomp] at hsr
  simp only [srTrace] at hsr
  have hq : q.foldl srStep (some (some a)) = some s.running := srFold_after_start hsr
  rcases srScan a b q s.running hq hbq with ⟨v₁, v₂, ok, hqd, hbv, _⟩
  exact ⟨p, v₁, v₂, ok, by rw [hdecomp, hqd], hbv⟩

theorem C2_fifo_witness :
    ∃ u₁ u₂ u₃ ok,
      c2run.trace = u₁ ++ (Event.started 0 :: (u₂ ++ (Event.resolved 0 ok :: u₃)))
        ∧ Event.started 1 ∈ u₃ :=
  C2_fifo c2run
    (ReachW.step (Act.add JobType.fetchAll "e" 3)
      (ReachW.step (Act.resolve (Except.ok "r") 2)
        (ReachW.step (Act.add JobType.fetchCommits "d" 1) ReachW.start)))
    0 1 [] [Event.started 0, Event.resolved 0 true, Event.enqueued 1, Event.started 1]
    (by decide) (by decide) (by decide)

/-! ### Claim C10: updateProgress frame property -/

/-- C10.  `updateProgress(jobId, percent)` only ever touches the `progress`
field of the job it names: if the id is unknown the state is entirely
unchanged (not even an event is emitted); if the job exists — in any status,
including `completed` and `failed`, since the source checks only existence —
then the wait-list, the dispatch flag, the registered worker, the id counter
and the in-flight invocation are unchanged, a `job-progress` notification is
appended, every other job is untouched, and the named job keeps every field
except `progress`, which becomes the written percentage. -/
theorem C10_updateProgress_frame (s : QState) (jid p : Nat) :
    ((findJob s.jobs jid).isNone → updateProgress jid p s = s)
    ∧ (∀ jb, findJob s.jobs jid = some jb →
        (updateProgress jid p s).queue = s.queue
        ∧ (updateProgress jid p s).processing = s.processing
        ∧ (updateProgress jid p s).workerSet = s.workerSet
        ∧ (updateProgress jid p s).nextId = s.nextId
        ∧ (updateProgress jid p s).running = s.running
        ∧ (updateProgress jid p s).trace = s.trace ++ [Event.progressed jid p]
        ∧ (∀ i, i ≠ jid → findJob (updateProgress jid p s).jobs i = findJob s.jobs i)
        ∧ ∃ jb', findJob (updateProgress jid p s).jobs jid = some jb'
            ∧ jb'.progress = some p
            ∧ jb'.id = jb.id ∧ jb'.jtype = jb.jtype ∧ jb'.data = jb.data
            ∧ jb'.status = jb.status ∧ jb'.result = jb.result ∧ jb'.error = jb.error
            ∧ jb'.createdAt = jb.createdAt ∧ jb'.startedAt = jb.startedAt
            ∧ jb'.completedAt = jb.completedAt) := by
  have hf : ∀ a : Job, (({ a with progress := some p } : Job)).id = a.id := fun a => rfl
  constructor
  · intro hnone
    rw [updateProgress]
    cases hfind : findJob s.jobs jid with
    | none => rfl
    | some j0 => rw [hfind] at hnone; cases hnone
  · intro jb hfind
    rw [updateProgress, hfind]
    refine ⟨rfl, rfl, rfl, rfl, rfl, rfl, ?_, ?_⟩
    · intro i hine
      show findJob (setJob s.jobs jid _) i = findJob s.jobs i
      exact findJob_setJob_ne hf hine
    · refine ⟨{ jb with progress := some p }, ?_, rfl, rfl, rfl, rfl, rfl, rfl, rfl,
        rfl, rfl, rfl⟩
      exact findJob_setJob_self hf hfind

theorem C10_updateProgress_frame_witness :
    (updateProgress 7 55 c10run = c10run)
    ∧ ((updateProgress 0 55 c10run).queue = c10run.queue
        ∧ (updateProgress 0 55 c10run).processing = c10run.processing
        ∧ (updateProgress 0 55 c10run).workerSet = c10run.workerSet
        ∧ (updateProgress 0 55 c10run).nextId = c10run.nextId
        ∧ (updateProgress 0 55 c10run).running = c10run.running
        ∧ (updateProgress 0 55 c10run).trace
            = c10run.trace ++ [Event.progressed 0 55]) := by
  have h1 := (C10_updateProgress_frame c10run 7 55).1 (by decide)
  have h2 := (C10_updateProgress_frame c10run 0 55).2
    { id := 0, jtype := JobType.fetchCommits, data := "d",
      status := JStatus.completed, progress := some 40, result := some "r",
      error := none, createdAt := 1, startedAt := some 2, completedAt := some 3 }
    (by decide)
  exact ⟨h1, h2.1, h2.2.1, h2.2.2.1, h2.2.2.2.1, h2.2.2.2.2.1, h2.2.2.2.2.2.1⟩

/-! ### Claim C5: worker failure semantics -/

theorem processNextFuel_findJob_ne : ∀ (fuel t : Nat) (s : QState) (i : Nat),
    i ∉ s.queue → findJob (processNextFuel fuel t s).jobs i = findJob s.jobs i
  | 0, _, _, _, _ => rfl
  | Nat.succ fuel, t, s, i, hni => by
    by_cases hp : s.processing = true
    · rw [processNextFuel_busy fuel t s hp]
    · have hpf : s.processing = false := by simpa using hp
      cases hq : s.queue with
      | nil => rw [processNextFuel_empty fuel t s hpf hq]
      | cons jid rest =>
        have hine : i ≠ jid := by
          intro hc; rw [hq, hc] at hni; exact hni (List.mem_cons_self _ _)
        by_cases hc : ((findJob s.jobs jid).isSome && s.workerSet) = true
        · rw [processNextFuel_start fuel t s jid rest hpf hq hc]
          show findJob (setJob s.jobs jid _) i = findJob s.jobs i
          exact findJob_setJob_ne (fun a => rfl) hine
        · rw [processNextFuel_drop fuel t s jid rest hpf hq hc]
          have hni2 : i ∉ rest := by
            intro hc2; rw [hq] at hni; exact hni (List.mem_cons_of_mem _ hc2)
          exact processNextFuel_findJob_ne fuel t _ i hni2

theorem reach_startIds_nodup {s : QState} (hs : Reach s) : (startIds s.trace).Nodup := by
  have h := (reach_qinv hs).sub
  exact List.Nodup.of_append_left (List.Nodup.sublist h (List.nodup_range _))

/-- C5.  When the in-flight worker invocation rejects, the queue catches the
exception at the dispatch boundary (`catch` in `processNext`): the job's
status becomes `failed`, its `error` field becomes the exception's message —
or the fixed fallback `"Unknown error"` when the exception carries no
(non-empty) message, per `errMsg` — a completion timestamp is stamped, and
every other field is kept.  Moreover the queue never retries: in every
reachable state each job id has at most one `job-started` event (the started
ids are duplicate-free), so no job's worker invocation is ever re-run. -/
theorem C5_failure_semantics :
    (∀ (s : QState) (jid : Nat) (m : Option String) (t : Nat),
      Reach s → s.running = some jid →
      ∃ j0, findJob s.jobs jid = some j0 ∧ j0.status = JStatus.processing ∧
        findJob (resolveJob (Except.error m) t s).jobs jid
          = some { j0 with status := JStatus.failed, error := some (errMsg m),
                           completedAt := some t })
    ∧ (∀ s : QState, Reach s → (startIds s.trace).Nodup) := by
  constructor
  · intro s jid m t hs hr
    have hqi : QInv s := reach_qinv hs
    rcases hqi.run_job jid hr with ⟨j0, hj0, hj0s⟩
    refine ⟨j0, hj0, hj0s, ?_⟩
    have hstep : resolveJob (Except.error m) t s
        = processNext t (resolveMid (Except.error m) jid t s) := by
      rw [resolveJob, hr]
    rw [hstep, processNext]
    have hnq : jid ∉ (resolveMid (Except.error m) jid t s).queue :=
      hqi.run_not_queued jid hr
    rw [processNextFuel_findJob_ne _ _ _ _ hnq]
    show findJob (setJob s.jobs jid _) jid = _
    exact findJob_setJob_self (fun a => rfl) hj0
  · intro s hs
    exact reach_startIds_nodup hs

theorem C5_failure_semantics_witness :
    (∃ j0, findJob c5run.jobs 0 = some j0 ∧ j0.status = JStatus.processing ∧
      findJob (resolveJob (Except.error (some "boom")) 9 c5run).jobs 0
        = some { j0 with status := JStatus.failed, error := some (errMsg (some "boom")),
                         completedAt := some 9 })
    ∧ (startIds c5run.trace).Nodup :=
  ⟨C5_failure_semantics.1 c5run 0 (some "boom") 9
      (Reach.step (Act.add JobType.fetchCommits "d" 1)
        (Reach.step Act.setw Reach.start))
      (by decide),
   C5_failure_semantics.2 c5run
      (Reach.step (Act.add JobType.fetchCommits "d" 1)
        (Reach.step Act.setw Reach.start))⟩

/-! ### Claim C9: jobs dequeued with no worker registered are stranded -/

theorem qstate_queue_nil (s : QState) (h : s.queue = []) : s = { s with queue := [] } := by
  cases s
  simp_all

theorem qstate_proc_false (s : QState) (h : s.processing = false) (x : List Nat) :
    ({ s with processing := false, queue := x } : QState) = { s with queue := x } := by
  cases s
  simp_all

/-- With no worker registered and the flag clear, `processNext` drains the
entire wait-list — every popped id hits the `!this.worker` branch, which
recurses without ever starting a job or touching the job map. -/
theorem pnf_drain : ∀ (fuel t : Nat) (s : QState), s.workerSet = false →
    s.processing = false → s.queue.length ≤ fuel →
    processNextFuel fuel t s = { s with queue := [] }
  | 0, t, s, _, _, hlen => by
    have hq : s.queue = [] := List.eq_nil_of_length_eq_zero (Nat.le_zero.mp hlen)
    exact (qstate_queue_nil s hq).symm ▸ rfl
  | Nat.succ fuel, t, s, hw, hp, hlen => by
    cases hq : s.queue with
    | nil =>
      rw [processNextFuel_empty fuel t s hp hq]
      exact qstate_queue_nil s hq
    | cons jid rest =>
      have hc : ¬ ((findJob s.jobs jid).isSome && s.workerSet) = true := by
        rw [hw]; simp
      rw [processNextFuel_drop fuel t s jid rest hp hq hc]
      have hlen2 : rest.length ≤ fuel := by
        rw [hq] at hlen
        simpa using hlen
      rw [qstate_proc_false s hp rest]
      have := pnf_drain fuel t ({ s with queue := rest } : QState) hw hp hlen2
      rw [this]

theorem pnf_queue_subset : ∀ (fuel t : Nat) (s : QState) (i : Nat),
    i ∈ (processNextFuel fuel t s).queue → i ∈ s.queue
  | 0, _, _, _, h => h
  | Nat.succ fuel, t, s, i, h => by
    by_cases hp : s.processing = true
    · rw [processNextFuel_busy fuel t s hp] at h; exact h
    · have hpf : s.processing = false := by simpa using hp
      cases hq : s.queue with
      | nil =>
        rw [processNextFuel_empty fuel t s hpf hq] at h
        rw [hq] at h
        exact h
      | cons jid rest =>
        by_cases hc : ((findJob s.jobs jid).isSome && s.workerSet) = true
        · rw [processNextFuel_start fuel t s jid rest hpf hq hc] at h
          exact List.mem_cons_of_mem _ h
        · rw [processNextFuel_drop fuel t s jid rest hpf hq hc] at h
          exact List.mem_cons_of_mem _ (pnf_queue_subset fuel t _ i h)

theorem pnf_trace : ∀ (fuel t : Nat) (s : QState),
    ∃ w, (processNextFuel fuel t s).trace = s.trace ++ w
      ∧ ∀ i, Event.started i ∈ w → i ∈ s.queue
  | 0, _, s => ⟨[], (List.append_nil s.trace).symm, fun i h => absurd h (by simp)⟩
  | Nat.succ fuel, t, s => by
    by_cases hp : s.processing = true
    · rw [processNextFuel_busy fuel t s hp]
      exact ⟨[], (List.append_nil s.trace).symm, fun i h => absurd h (by simp)⟩
    · have hpf : s.processing = false := by simpa using hp
      cases hq : s.queue with
      | nil =>
        rw [processNextFuel_empty fuel t s hpf hq]
        exact ⟨[], (List.append_nil s.trace).symm, fun i h => absurd h (by simp)⟩
      | cons jid rest =>
        by_cases hc : ((findJob s.jobs jid).isSome && s.workerSet) = true
        · rw [processNextFuel_start fuel t s jid rest hpf hq hc]
          refine ⟨[Event.started jid], rfl, ?_⟩
          intro i hi
          have h2 : Event.started i = Event.started jid := by simpa using hi
          injection h2 with h1
          rw [h1]
          exact List.mem_cons_self _ _
        · rw [processNextFuel_drop fuel t s jid rest hpf hq hc]
          rcases pnf_trace fuel t ({ s with processing := false, queue := rest } : QState)
            with ⟨w, hw, hmem⟩
          refine ⟨w, hw, ?_⟩
          intro i hi
          exact List.mem_cons_of_mem _ (hmem i hi)

theorem pnf_nextId : ∀ (fuel t : Nat) (s : QState),
    (processNextFuel fuel t s).nextId = s.nextId
  | 0, _, _ => rfl
  | Nat.succ fuel, t, s => by
    by_cases hp : s.processing = true
    · rw [processNextFuel_busy fuel t s hp]
    · have hpf : s.processing = false := by simpa using hp
      cases hq : s.queue with
      | nil => rw [processNextFuel_empty fuel t s hpf hq]
      | cons jid rest =>
        by_cases hc : ((findJob s.jobs jid).isSome && s.workerSet) = true
        · rw [processNextFuel_start fuel t s jid rest hpf hq hc]
          rfl
        · rw [processNextFuel_drop fuel t s jid rest hpf hq hc]
          exact pnf_nextId fuel t _

theorem resolveMid_queue (o : Except (Option String) String) (jid t : Nat) (s : QState) :
    (resolveMid o jid t s).queue = s.queue := by
  cases o with
  | ok r => rfl
  | error m => rfl

theorem resolveMid_nextId (o : Except (Option String) String) (jid t : Nat) (s : QState) :
    (resolveMid o jid t s).nextId = s.nextId := by
  cases o with
  | ok r => rfl
  | error m => rfl

theorem resolveMid_jobs_ne (o : Except (Option String) String) (jid t : Nat) (s : QState)
    (i : Nat) (hne : i ≠ jid) :
    findJob (resolveMid o jid t s).jobs i = findJob s.jobs i := by
  cases o with
  | ok r =>
    show findJob (setJob s.jobs jid _) i = findJob s.jobs i
    exact findJob_setJob_ne (fun a => rfl) hne
  | error m =>
    show findJob (setJob s.jobs jid _) i = findJob s.jobs i
    exact findJob_setJob_ne (fun a => rfl) hne

theorem resolveMid_trace (o : Except (Option String) String) (jid t : Nat) (s : QState) :
    ∃ ok, (resolveMid o jid t s).trace = s.trace ++ [Event.resolved jid ok] := by
  cases o with
  | ok r => exact ⟨true, rfl⟩
  | error m => exact ⟨false, rfl⟩

theorem stuck_pnf {jid : Nat} (fuel t : Nat) (s : QState) (h : Stuck jid s) :
    Stuck jid (processNextFuel fuel t s) := by
  rcases h with ⟨⟨j, hfind, hpend⟩, hnq, hnst, hlt⟩
  refine ⟨⟨j, ?_, hpend⟩, ?_, ?_, ?_⟩
  · rw [processNextFuel_findJob_ne fuel t s jid hnq]; exact hfind
  · intro hc; exact hnq (pnf_queue_subset fuel t s jid hc)
  · rcases pnf_trace fuel t s with ⟨w, hw, hmem⟩
    rw [hw]
    intro hc
    rcases List.mem_append.mp hc with h1 | h2
    · exact hnst h1
    · exact hnq (hmem jid h2)
  · rw [pnf_nextId]; exact hlt

theorem stuck_step {jid : Nat} (a : Act) (s : QState) (hq : QInv s) (h : Stuck jid s) :
    Stuck jid (step a s) := by
  rcases h with ⟨⟨j, hfind, hpend⟩, hnq, hnst, hlt⟩
  cases a with
  | add jt d t =>
    show Stuck jid (processNextFuel (addMid jt d t s).queue.length t (addMid jt d t s))
    apply stuck_pnf
    refine ⟨⟨j, findJob_append_left _ hfind, hpend⟩, ?_, ?_, Nat.lt_succ_of_lt hlt⟩
    · intro hc
      rcases List.mem_append.mp hc with h1 | h2
      · exact hnq h1
      · have : jid = s.nextId := by simpa using h2
        exact Nat.lt_irrefl _ (this ▸ hlt)
    · intro hc
      rcases List.mem_append.mp hc with h1 | h2
      · exact hnst h1
      · simp at h2
  | resolve o t =>
    cases hr : s.running with
    | none =>
      have hstep : step (Act.resolve o t) s = s := by
        show resolveJob o t s = s
        rw [resolveJob, hr]
      rw [hstep]
      exact ⟨⟨j, hfind, hpend⟩, hnq, hnst, hlt⟩
    | some r =>
      have hne : jid ≠ r := by
        intro hc
        exact hnst (hc ▸ hq.run_started r hr)
      have hstep : step (Act.resolve o t) s = processNext t (resolveMid o r t s) := by
        show resolveJob o t s = _
        rw [resolveJob, hr]
      rw [hstep, processNext]
      apply stuck_pnf
      refine ⟨⟨j, ?_, hpend⟩, ?_, ?_, ?_⟩
      · rw [resolveMid_jobs_ne o r t s jid hne]; exact hfind
      · rw [resolveMid_queue]; exact hnq
      · rcases resolveMid_trace o r t s with ⟨ok, htr⟩
        rw [htr]
        intro hc
        rcases List.mem_append.mp hc with h1 | h2
        · exact hnst h1
        · simp at h2
      · rw [resolveMid_nextId]; exact hlt
  | setw => exact ⟨⟨j, hfind, hpend⟩, hnq, hnst, hlt⟩
  | progress tgt p =>
    show Stuck jid (updateProgress tgt p s)
    rw [updateProgress]
    cases hfd : findJob s.jobs tgt with
    | none => exact ⟨⟨j, hfind, hpend⟩, hnq, hnst, hlt⟩
    | some j0 =>
      refine ⟨?_, hnq, ?_, hlt⟩
      · by_cases htj : tgt = jid
        · subst htj
          refine ⟨{ j with progress := some p }, ?_, hpend⟩
          exact findJob_setJob_self (fun a => rfl) hfind
        · refine ⟨j, ?_, hpend⟩
          exact (@findJob_setJob_ne s.jobs jid tgt
            (fun j => { j with progress := some p }) (fun a => rfl)
            (fun hc => htj hc.symm)).trans hfind
      · intro hc
        rcases List.mem_append.mp hc with h1 | h2
        · exact hnst h1
        · simp at h2
  | cleanup t =>
    refine ⟨⟨j, ?_, hpend⟩, hnq, hnst, hlt⟩
    exact findJob_filter hfind (by simp [isStale, hpend])

theorem reachFrom_qinv_stuck {jid : Nat} {s0 s2 : QState} (h : ReachFrom s0 s2) :
    QInv s0 → Stuck jid s0 → QInv s2 ∧ Stuck jid s2 := by
  induction h with
  | refl s => exact fun hq hst => ⟨hq, hst⟩
  | step a h ih =>
    intro hq hst
    rcases ih hq hst with ⟨h1, h2⟩
    exact ⟨qinv_step a _ h1, stuck_step a _ h1 h2⟩

/-- C9.  If a job reaches the head of the wait-list while no worker function
has been registered, `processNext` removes its id from the wait-list (with no
worker the dispatch loop drains the whole list) but leaves the job `pending`
forever: in every later state — including after `setWorker` registers a
worker, which does not re-dispatch, and after any number of `cleanupOldJobs`
sweeps, which only collect terminal jobs — the job is still present, still
`pending`, and its worker invocation has never started. -/
theorem C9_no_worker_stranded (s : QState) (hs : Reach s) (hw : s.workerSet = false)
    (jt : JobType) (d : String) (t : Nat) :
    (step (Act.add jt d t) s).queue = []
    ∧ Stuck s.nextId (step (Act.add jt d t) s)
    ∧ (∀ s2, ReachFrom (step (Act.add jt d t) s) s2 →
        (∃ j, findJob s2.jobs s.nextId = some j ∧ j.status = JStatus.pending)
        ∧ Event.started s.nextId ∉ s2.trace) := by
  have hqi : QInv s := reach_qinv hs
  have hrn : s.running = none := by
    cases hr : s.running with
    | none => rfl
    | some i => exact absurd (hqi.run_worker i hr) (by rw [hw]; simp)
  have hpf : s.processing = false := by rw [hqi.proc_run, hrn]; rfl
  have hstep : step (Act.add jt d t) s = { addMid jt d t s with queue := [] } := by
    show processNext t (addMid jt d t s) = _
    rw [processNext]
    exact pnf_drain _ t _ hw hpf (Nat.le_refl _)
  have hnostart : Event.started s.nextId ∉ s.trace := by
    intro hc
    have h1 : s.nextId ∈ startIds s.trace := mem_startIds hc
    have h2 : s.nextId ∈ List.range s.nextId :=
      hqi.sub.subset (List.mem_append_left _ h1)
    exact Nat.lt_irrefl _ (List.mem_range.mp h2)
  have hstuck : Stuck s.nextId (step (Act.add jt d t) s) := by
    rw [hstep]
    refine ⟨⟨newJob jt d t s, ?_, rfl⟩, by simp, ?_, Nat.lt_succ_self _⟩
    · show findJob (s.jobs ++ [newJob jt d t s]) s.nextId = some (newJob jt d t s)
      rw [findJob_append_right _ (findJob_eq_none_of_lt hqi.jobs_lt)]
      simp [findJob, newJob]
    · show Event.started s.nextId ∉ s.trace ++ [Event.enqueued s.nextId]
      intro hc
      rcases List.mem_append.mp hc with h1 | h2
      · exact hnostart h1
      · simp at h2
  refine ⟨by rw [hstep], hstuck, ?_⟩
  intro s2 h2
  have hq' : QInv (step (Act.add jt d t) s) := qinv_step _ _ hqi
  rcases reachFrom_qinv_stuck h2 hq' hstuck with ⟨-, hst2⟩
  exact ⟨hst2.1, hst2.2.2.1⟩

theorem C9_no_worker_stranded_witness :
    (step (Act.add JobType.fetchCommits "d" 1) QState.start).queue = []
    ∧ (∃ j, findJob c9later.jobs 0 = some j ∧ j.status = JStatus.pending)
    ∧ Event.started 0 ∉ c9later.trace := by
  have h := C9_no_worker_stranded QState.start Reach.start rfl
    JobType.fetchCommits "d" 1
  have h3 := h.2.2 c9later
    (ReachFrom.step Act.setw (ReachFrom.step (Act.cleanup 999999999)
      (ReachFrom.refl _)))
  exact ⟨h.1, h3.1, h3.2⟩

/-! ### Claim C6: the upsert is atomic -/

theorem foldlM_files_ok : ∀ (l : List FileInfo) (env : SqlEnv) (fs : String)
    (acc r : DBState),
    (l.foldlM (fun a f => runInsertFile env a (fileRowOf fs f)) acc) = Except.ok r →
    r = l.foldl (fun a f => upsertFileRow a (fileRowOf fs f)) acc := by
  intro l
  induction l with
  | nil =>
    intro env fs acc r h
    have h2 : (Except.ok acc : Except String DBState) = Except.ok r := h
    injection h2 with h3
    exact h3.symm
  | cons f l ih =>
    intro env fs acc r h
    rw [List.foldlM_cons] at h
    cases hf : runInsertFile env acc (fileRowOf fs f) with
    | error e =>
      rw [hf] at h
      simp [Bind.bind, Except.bind] at h
    | ok acc2 =>
      rw [hf] at h
      simp only [Bind.bind, Except.bind] at h
      have hacc2 : acc2 = upsertFileRow acc (fileRowOf fs f) := by
        rw [runInsertFile] at hf
        by_cases hff : env.fileInsertFails (fileRowOf fs f) = true
        · rw [if_pos hff] at hf; cases hf
        · rw [if_neg hff] at hf
          injection hf with h2
          exact h2.symm
      rw [List.foldl_cons, ← hacc2]
      exact ih env fs acc2 r h

/-- C6.  `saveCommitToDB` writes the commit row and all of its file-change
rows inside one `db.transaction(...)` call: for every input (including every
injected statement fault), either the call returns `true` and the datastore
is exactly the fault-free application of the commit row upsert plus every
file row upsert (`applySave`), or some sub-write raised, the transaction was
rolled back, the call returns `false`, and the datastore is exactly as
before — no partial commit/file-set state is ever observable. -/
theorem C6_save_atomic (env : SqlEnv) (db : DBState) (cd : CommitData)
    (ai : Option String) (now : String) :
    saveCommitToDB env db cd ai now = (true, applySave db cd ai now)
      ∨ saveCommitToDB env db cd ai now = (false, db) := by
  rw [saveCommitToDB]
  cases htx : txBody env db cd ai now with
  | error e => right; rfl
  | ok db2 =>
    left
    rw [txBody] at htx
    cases hc : runInsertCommit env db (commitRowOf cd ai now) with
    | error e =>
      rw [hc] at htx
      simp [Bind.bind, Except.bind] at htx
    | ok db1 =>
      rw [hc] at htx
      simp only [Bind.bind, Except.bind] at htx
      have h1 : db1 = upsertCommitRow db (commitRowOf cd ai now) := by
        rw [runInsertCommit] at hc
        by_cases hcf : env.commitInsertFails (commitRowOf cd ai now) = true
        · rw [if_pos hcf] at hc; cases hc
        · rw [if_neg hcf] at hc
          injection hc with h2
          exact h2.symm
      have h2 : db2 = applySave db cd ai now := by
        rw [applySave, ← h1]
        exact foldlM_files_ok cd.files env cd.fullSha db1 db2 htx
      rw [h2]

/-- C7 counterexample: when the summarization response carries *empty*
string content, `analyzeCommitWithAI` does not return null — it returns the
empty string (`''.trim()`), so "returns null when the response content is
empty" is false as stated. -/
theorem C7_cex :
    analyzeCommitWithAI true
        (fun _ => ChatOutcome.response (some (ChatContent.str ""))) cdC7
      = some ""
    ∧ some "" ≠ (none : Option String) :=
  ⟨rfl, by decide⟩

/-- C7 (amended).  `analyzeCommitWithAI` never throws outward (it is a total
function of the call's outcome) and returns null when the capability is
unconfigured, when the call errors, and when the response content is absent
or not a plain string; when the content *is* a string it returns that string
trimmed — including the empty string for empty content, rather than null. -/
theorem C7_annotation_contained (api : String → ChatOutcome) (cd : CommitData) :
    (analyzeCommitWithAI false api cd = none)
    ∧ (api (buildPrompt cd) = ChatOutcome.err → analyzeCommitWithAI true api cd = none)
    ∧ (api (buildPrompt cd) = ChatOutcome.response none →
        analyzeCommitWithAI true api cd = none)
    ∧ (api (buildPrompt cd) = ChatOutcome.response (some ChatContent.chunks) →
        analyzeCommitWithAI true api cd = none)
    ∧ (∀ s, api (buildPrompt cd) = ChatOutcome.response (some (ChatContent.str s)) →
        analyzeCommitWithAI true api cd = some (jsTrim s)) := by
  refine ⟨rfl, ?_, ?_, ?_, ?_⟩
  · intro h; rw [analyzeCommitWithAI]; rw [h]; rfl
  · intro h; rw [analyzeCommitWithAI]; rw [h]; rfl
  · intro h; rw [analyzeCommitWithAI]; rw [h]; rfl
  · intro s h; rw [analyzeCommitWithAI]; rw [h]; rfl

theorem C7_annotation_contained_witness :
    analyzeCommitWithAI true (fun _ => ChatOutcome.err) cdC7 = none
    ∧ analyzeCommitWithAI true
        (fun _ => ChatOutcome.response (some (ChatContent.str "  ok  "))) cdC7
        = some (jsTrim "  ok  ") :=
  ⟨(C7_annotation_contained (fun _ => ChatOutcome.err) cdC7).2.1 rfl,
   (C7_annotation_contained
      (fun _ => ChatOutcome.response (some (ChatContent.str "  ok  "))) cdC7).2.2.2.2
      "  ok  " rfl⟩

/-- C3 counterexample: during a batch-fetch job the persistence upsert fails
with a transaction error (the `dbWrite _ false` event), yet nothing
propagates out of the persistence layer — the worker returns a *success*
result (so the enclosing job terminates `completed`, not `failed`) with the
commit merely missing from the results, and the datastore is unchanged. -/
theorem C3_cex :
    runFetchCommits envC3 dbC3 ["o/r"] 5 false
      = (Except.ok { success := true, collected := 0, results := [] }, dbC3,
         [FxEvent.progressReport 100, FxEvent.listCall "o/r",
          FxEvent.detailCall "o/r" "F", FxEvent.dbWrite "F" false]) := rfl

/-- C3 (amended).  A transaction error during the upsert is contained inside
`saveCommitToDB`, which catches it and returns `false` with the datastore
rolled back; the batch-fetch worker never rejects after the token check
passes, whatever the fault model — so the enclosing job resolves
successfully and the queue marks it `completed`, not `failed`. -/
theorem C3_persistence_contained :
    (∀ (env : SqlEnv) (db : DBState) (cd : CommitData) (ai : Option String) (now : String),
      (∃ e, txBody env db cd ai now = Except.error e) →
      saveCommitToDB env db cd ai now = (false, db))
    ∧ (∀ (env : FetchEnv) (db : DBState) (repos : List String) (limit : Nat) (useAI : Bool),
        jsTruthyStr env.githubToken = true →
        ∃ r, (runFetchCommits env db repos limit useAI).1 = Except.ok r)
    ∧ (∀ (s : QState) (jid t : Nat) (r : String),
        Reach s → s.running = some jid →
        ∃ j0, findJob s.jobs jid = some j0 ∧
          findJob (resolveJob (Except.ok r) t s).jobs jid
            = some { j0 with status := JStatus.completed, result := some r,
                             completedAt := some t }) := by
  refine ⟨?_, ?_, ?_⟩
  · intro env db cd ai now ⟨e, he⟩
    rw [saveCommitToDB, he]
  · intro env db repos limit useAI htok
    rw [runFetchCommits, htok]
    exact ⟨_, rfl⟩
  · intro s jid t r hs hr
    have hqi : QInv s := reach_qinv hs
    rcases hqi.run_job jid hr with ⟨j0, hj0, _⟩
    refine ⟨j0, hj0, ?_⟩
    have hstep : resolveJob (Except.ok r) t s
        = processNext t (resolveMid (Except.ok r) jid t s) := by
      rw [resolveJob, hr]
    rw [hstep, processNext]
    have hnq : jid ∉ (resolveMid (Except.ok r) jid t s).queue :=
      hqi.run_not_queued jid hr
    rw [processNextFuel_findJob_ne _ _ _ _ hnq]
    show findJob (setJob s.jobs jid _) jid = _
    exact findJob_setJob_self (fun a => rfl) hj0

theorem C3_persistence_contained_witness :
    (saveCommitToDB sqlFailC3 dbC3 cdC3 none "T" = (false, dbC3))
    ∧ (∃ r, (runFetchCommits envC3 dbC3 ["o/r"] 5 false).1 = Except.ok r)
    ∧ (∃ j0, findJob c3run.jobs 0 = some j0 ∧
        findJob (resolveJob (Except.ok "done") 7 c3run).jobs 0
          = some { j0 with status := JStatus.completed, result := some "done",
                           completedAt := some 7 }) :=
  ⟨C3_persistence_contained.1 sqlFailC3 dbC3 cdC3 none "T" ⟨"SQLITE_ERROR", rfl⟩,
   C3_persistence_contained.2.1 envC3 dbC3 ["o/r"] 5 false rfl,
   C3_persistence_contained.2.2 c3run 0 7 "done"
     (Reach.step (Act.add JobType.fetchCommits "d" 1)
       (Reach.step Act.setw Reach.start))
     (by decide)⟩

/-! ### Claim C4: handling of already-annotated commits -/

theorem WSt.log_db (st : WSt) (e : FxEvent) : (st.log e).db = st.db := rfl

theorem WSt.log_results (st : WSt) (e : FxEvent) : (st.log e).results = st.results := rfl

theorem WSt.log_events (st : WSt) (e : FxEvent) :
    (st.log e).events = st.events ++ [e] := rfl

/-- C4 counterexample: the commit with hash `"F"` is already stored with a
non-null annotation, yet re-running the batch-fetch worker over it performs
a detail-fetch call *and* re-writes the record (`detailCall` and `dbWrite`
both appear in the effect trace): the reference is not classified skip
before the detail fetch, and a write happens.  (No `aiCall` appears — only
the zero-annotation-calls part of the claim holds on this path.) -/
theorem C4_cex :
    getCommitFromDB dbC4 "F" = some (some "done")
    ∧ (runFetchCommits envC4 dbC4 ["o/r"] 5 true).2.2
        = [FxEvent.progressReport 100, FxEvent.listCall "o/r",
           FxEvent.detailCall "o/r" "F", FxEvent.dbWrite "F" true] :=
  ⟨rfl, rfl⟩

/-- C4 (amended).  For a reference whose stored record carries a non-null
(non-empty) annotation: in the batch-fetch worker (part_007) the detail is
always fetched *before* the store is consulted, zero annotation calls are
made — the stored annotation is reused verbatim — and the record is
re-upserted (one write); the skip-before-any-detail-fetch with no write
holds only in the full-collection script's loop (part_000), which checks the
store first and leaves the state entirely unchanged. -/
theorem C4_skip_semantics :
    (∀ (env : FetchEnv) (mistral : Bool) (repoStr : String) (st : WSt)
        (ref : CommitRef) (details : CommitData) (ai : String),
      env.getDetail repoStr ref.sha = some details →
      getCommitFromDB st.db details.fullSha = some (some ai) → ai ≠ "" →
      ∃ ok db2,
        saveCommitToDB env.sql st.db details (some ai) env.now = (ok, db2)
        ∧ processCommitWk env mistral repoStr st ref
            = { db := db2,
                results := if ok then st.results ++ [resEntryOf details (some ai)]
                           else st.results,
                events := st.events ++ [FxEvent.detailCall repoStr ref.sha,
                                        FxEvent.dbWrite details.fullSha ok] })
    ∧ (∀ (env : FetchEnv) (mistral : Bool) (blacklist : List String) (repoStr : String)
        (st : WSt) (ref : CommitRef) (ai : String),
      getCommitFromDB st.db ref.sha = some (some ai) → ai ≠ "" →
      mainCommitStep env mistral blacklist repoStr st ref = st) := by
  constructor
  · intro env mistral repoStr st ref details ai hdet hget hai
    cases hsave : saveCommitToDB env.sql st.db details (some ai) env.now with
    | mk ok db2 =>
      have htruthy : jsTruthyStr (some ai) = true := by
        simp [jsTruthyStr, hai]
      refine ⟨ok, db2, rfl, ?_⟩
      rw [processCommitWk, hdet]
      simp only [WSt.log_db, hget, htruthy, if_true, hsave, WSt.log_events,
        WSt.log_results]
      cases ok with
      | true => simp [List.append_assoc]
      | false => simp [List.append_assoc]
  · intro env mistral blacklist repoStr st ref ai hget hai
    have htruthy : jsTruthyStr (some ai) = true := by
      simp [jsTruthyStr, hai]
    rw [mainCommitStep]
    by_cases hbl : (0 < blacklist.length && blacklist.contains ref.authorName) = true
    · rw [if_pos hbl]
    · rw [if_neg hbl]
      simp only [hget, htruthy, if_true]

theorem C4_skip_semantics_witness :
    (∃ ok db2,
      saveCommitToDB envC4.sql dbC4 cdC4 (some "done") envC4.now = (ok, db2)
      ∧ processCommitWk envC4 true "o/r" { db := dbC4, results := [], events := [] }
          { sha := "F", authorName := "alice" }
          = { db := db2,
              results := if ok then [] ++ [resEntryOf cdC4 (some "done")] else [],
              events := [] ++ [FxEvent.detailCall "o/r" "F", FxEvent.dbWrite "F" ok] })
    ∧ mainCommitStep envC4 true ["bot"] "o/r" { db := dbC4, results := [], events := [] }
        { sha := "F", authorName := "alice" }
        = { db := dbC4, results := [], events := [] } :=
  ⟨C4_skip_semantics.1 envC4 true "o/r" { db := dbC4, results := [], events := [] }
      { sha := "F", authorName := "alice" } cdC4 "done" rfl rfl (by decide),
   C4_skip_semantics.2 envC4 true ["bot"] "o/r" { db := dbC4, results := [], events := [] }
      { sha := "F", authorName := "alice" } "done" rfl (by decide)⟩

/-! ### Claim C8: progress reporting -/

theorem processCommitWk_events (env : FetchEnv) (mistral : Bool) (repoStr : String)
    (st : WSt) (ref : CommitRef) :
    ∃ w, (processCommitWk env mistral repoStr st ref).events = st.events ++ w := by
  rw [processCommitWk]
  cases env.getDetail repoStr ref.sha with
  | none => exact ⟨[FxEvent.detailCall repoStr ref.sha], rfl⟩
  | some details =>
    simp only [WSt.log]
    repeat' split
    all_goals simp only [List.append_assoc]
    all_goals exact ⟨_, rfl⟩

theorem foldl_processCommitWk_events (env : FetchEnv) (mistral : Bool) (repoStr : String) :
    ∀ (refs : List CommitRef) (st : WSt),
    ∃ w, (refs.foldl (processCommitWk env mistral repoStr) st).events = st.events ++ w := by
  intro refs
  induction refs with
  | nil => intro st; exact ⟨[], by simp⟩
  | cons r rs ih =>
    intro st
    rw [List.foldl_cons]
    rcases processCommitWk_events env mistral repoStr st r with ⟨w1, hw1⟩
    rcases ih (processCommitWk env mistral repoStr st r) with ⟨w2, hw2⟩
    exact ⟨w1 ++ w2, by rw [hw2, hw1, List.append_assoc]⟩

theorem runRepos_events (env : FetchEnv) (mistral : Bool) (total limit : Nat) :
    ∀ (rs : List String) (i : Nat) (st : WSt),
    ∃ w, (runRepos env mistral total limit i rs st).events = st.events ++ w := by
  intro rs
  induction rs with
  | nil => intro i st; exact ⟨[], by simp [runRepos]⟩
  | cons x rest ih =>
    intro i st
    rw [runRepos]
    split
    · exact ih (i + 1) st
    · simp only [WSt.log]
      rcases foldl_processCommitWk_events env mistral x
          ((env.listCommits x).take limit)
          { db := st.db, results := st.results,
            events := st.events ++ [FxEvent.progressReport (jsRoundDiv (i + 1) total)]
              ++ [FxEvent.listCall x] } with ⟨w1, hw1⟩
      rcases ih (i + 1) (((env.listCommits x).take limit).foldl
          (processCommitWk env mistral x)
          { db := st.db, results := st.results,
            events := st.events ++ [FxEvent.progressReport (jsRoundDiv (i + 1) total)]
              ++ [FxEvent.listCall x] }) with ⟨w2, hw2⟩
      refine ⟨[FxEvent.progressReport (jsRoundDiv (i + 1) total), FxEvent.listCall x]
        ++ w1 ++ w2, ?_⟩
      rw [hw2, hw1]
      simp [List.append_assoc]

theorem runRepos_progress_block (env : FetchEnv) (mistral : Bool) (total limit : Nat) :
    ∀ (rs : List String) (k i : Nat) (st : WSt) (r : String),
    rs.get? k = some r →
    (((jsSplitSlash r).getD 0 "" == "") || ((jsSplitSlash r).getD 1 "" == "")) = false →
    ∃ u v, (runRepos env mistral total limit i rs st).events
      = st.events ++ u ++ (FxEvent.progressReport (jsRoundDiv (i + k + 1) total)
          :: FxEvent.listCall r :: v) := by
  intro rs
  induction rs with
  | nil => intro k i st r hk hv; simp at hk
  | cons x rest ih =>
    intro k i st r hk hv
    cases k with
    | zero =>
      have hx : x = r := by simpa using hk
      subst hx
      rw [runRepos]
      rw [if_neg (by rw [hv]; simp)]
      simp only [WSt.log]
      rcases foldl_processCommitWk_events env mistral x
          ((env.listCommits x).take limit)
          { db := st.db, results := st.results,
            events := st.events ++ [FxEvent.progressReport (jsRoundDiv (i + 1) total)]
              ++ [FxEvent.listCall x] } with ⟨w1, hw1⟩
      rcases runRepos_events env mistral total limit rest (i + 1)
          (((env.listCommits x).take limit).foldl (processCommitWk env mistral x)
            { db := st.db, results := st.results,
              events := st.events ++ [FxEvent.progressReport (jsRoundDiv (i + 1) total)]
                ++ [FxEvent.listCall x] }) with ⟨w2, hw2⟩
      refine ⟨[], w1 ++ w2, ?_⟩
      rw [hw2, hw1]
      simp [List.append_assoc]
    | succ k2 =>
      rw [runRepos]
      split
      · rcases ih k2 (i + 1) st r (by simpa using hk) hv with ⟨u, v, huv⟩
        refine ⟨u, v, ?_⟩
        rw [huv]
        rw [show i + 1 + k2 + 1 = i + (k2 + 1) + 1 from by omega]
      · simp only [WSt.log]
        rcases ih k2 (i + 1)
            (((env.listCommits x).take limit).foldl (processCommitWk env mistral x)
              { db := st.db, results := st.results,
                events := st.events ++ [FxEvent.progressReport (jsRoundDiv (i + 1) total)]
                  ++ [FxEvent.listCall x] }) r (by simpa using hk) hv with ⟨u, v, huv⟩
        rcases foldl_processCommitWk_events env mistral x
            ((env.listCommits x).take limit)
            { db := st.db, results := st.results,
              events := st.events ++ [FxEvent.progressReport (jsRoundDiv (i + 1) total)]
                ++ [FxEvent.listCall x] } with ⟨w1, hw1⟩
        refine ⟨[FxEvent.progressReport (jsRoundDiv (i + 1) total), FxEvent.listCall x]
          ++ w1 ++ u, v, ?_⟩
        rw [huv, hw1]
        rw [show i + 1 + k2 + 1 = i + (k2 + 1) + 1 from by omega]
        simp [List.append_assoc]

/-- C8 counterexample: with a single repository, the worker reports progress
`100` as its *first* action — before the repository's listing call, i.e.
before the repository has been processed at all — refuting "each report made
after finishing the corresponding repository's processing" and "100 is only
reported once the last repository has been fully processed". -/
theorem C8_cex :
    (runFetchCommits envC8 dbC8 ["o/r"] 5 false).2.2
      = [FxEvent.progressReport 100, FxEvent.listCall "o/r"]
    ∧ ∃ u, (runFetchCommits envC8 dbC8 ["o/r"] 5 false).2.2
        = FxEvent.progressReport 100 :: u ∧ FxEvent.listCall "o/r" ∈ u :=
  ⟨rfl, ⟨[FxEvent.listCall "o/r"], rfl, by decide⟩⟩

/-- C8 (amended).  During a batch-fetch job over `N` repositories the
orchestrator reports progress `round(((i+1)/N)*100)` for repository `i`
(counting invalid-format entries in `N`), but *immediately before*
processing that repository — the report is followed directly by the
repository's listing call — so a progress value of `100` is reported as soon
as the last repository's processing begins, not after it finishes. -/
theorem C8_progress_timing (env : FetchEnv) (db : DBState) (repos : List String)
    (limit : Nat) (useAI : Bool) (k : Nat) (r : String)
    (htok : jsTruthyStr env.githubToken = true)
    (hk : repos.get? k = some r)
    (hv : (((jsSplitSlash r).getD 0 "" == "") || ((jsSplitSlash r).getD 1 "" == ""))
        = false) :
    ∃ u v, (runFetchCommits env db repos limit useAI).2.2
      = u ++ (FxEvent.progressReport (jsRoundDiv (k + 1) repos.length)
          :: FxEvent.listCall r :: v) := by
  rw [runFetchCommits]
  rw [if_neg (by rw [htok]; simp)]
  rcases runRepos_progress_block env (useAI && jsTruthyStr env.mistralApiKey)
      repos.length limit repos k 0 { db := db, results := [], events := [] } r hk hv
    with ⟨u, v, huv⟩
  refine ⟨u, v, ?_⟩
  show (runRepos env (useAI && jsTruthyStr env.mistralApiKey) repos.length limit 0 repos
    { db := db, results := [], events := [] }).events = _
  rw [huv]
  rw [show 0 + k + 1 = k + 1 from by omega]
  simp

theorem C8_progress_timing_witness :
    ∃ u v, (runFetchCommits envC8 dbC8 ["o/r"] 5 false).2.2
      = u ++ (FxEvent.progressReport (jsRoundDiv (0 + 1) (["o/r"] : List String).length)
          :: FxEvent.listCall "o/r" :: v) :=
  C8_progress_timing envC8 dbC8 ["o/r"] 5 false 0 "o/r" rfl rfl (by decide)
